import Mathlib

/-!
Verification of the Aho-Corasick automaton implementation (`ahocora.py`).

The Python class `AC` is shallowly embedded as a record `Ahocora.AC` of its
tables, and each method becomes an explicit state-passing Lean function:

* `AC.G`   — the transition table `self.G`, a `defaultdict(count(1).__next__)`;
  modelled as `Nat × α → Option Nat` together with the next-fresh-id counter
  `cnt` (the Python `count(1)` object, so `cnt` starts at `1`).
* `AC.O`   — the output table `self.O`, a `defaultdict(set)`; modelled as a
  total function to lists, an absent key being `[]`.  All sets that the code
  ever stores under a present key are nonempty (a key is created either by
  `add`, which inserts a word, or by the output merge in `build`, which unions
  a nonempty set into it), so the Python membership test `fs in O` is modelled
  as `O fs ≠ []`.
* `AC.F`   — the failure table `self.F`, a plain dict; modelled as
  `Nat → Option Nat`.  The Python code reads `F[r]` (which would raise on an
  absent key) only at keys that the breadth-first invariant guarantees to be
  present; those reads are modelled as `(F r).getD 0`.
* `AC.W`   — the per-state alphabet `self._W`, a `defaultdict(set)`; modelled
  as a total function to lists, an absent key being `[]`.
* `built`, `deter` — the `_built` and `_deter` flags.

The two `while` loops of the source (the failure fallback and the
deterministic closure walk) decrease the depth of the current state, which is
bounded by the number of states; they are modelled with an explicit fuel of
`cnt`, and the proofs show this fuel is never exhausted on automata that the
code can actually produce.  Python `assert` failures are modelled with
`Except`; for `add`, the error value also carries the automaton as it stands
when the assertion fires, so that statements about mutation-before-error can
be made.
-/

set_option linter.unusedSectionVars false

namespace Ahocora

variable {α : Type} [DecidableEq α]

/-- The `AC` object: transition table with fresh-id counter, output table,
failure table, per-state alphabet, and the two lifecycle flags. -/
structure AC (α : Type) where
  G : Nat × α → Option Nat
  cnt : Nat
  O : Nat → List (List α)
  F : Nat → Option Nat
  W : Nat → List α
  built : Bool
  deter : Bool

/-- `AC.__init__`: all tables empty, counter at `1`, flags down. -/
def init : AC α :=
  ⟨fun _ => none, 1, fun _ => [], fun _ => none, fun _ => [], false, false⟩

/-- The loop of `AC.add`: for each symbol `c` of the word, record `c` in the
alphabet of the current state, then follow `G[state, c]`, allocating a fresh
id from the counter when the transition is absent (the `defaultdict`
behaviour of `self.G`). -/
def addLoop : AC α → Nat → List α → AC α × Nat
  | ac, _state, [] => (ac, _state)
  | ac, state, c :: cs =>
    let ac1 : AC α :=
      { ac with W := fun s => if s = state then (ac.W s).insert c else ac.W s }
    match ac1.G (state, c) with
    | some t => addLoop ac1 t cs
    | none =>
      addLoop
        { ac1 with
            G := fun p => if p = (state, c) then some ac1.cnt else ac1.G p,
            cnt := ac1.cnt + 1 }
        ac1.cnt cs

/-- `AC.add`.  The error value carries the automaton as it stands when the
assertion fires (for the empty-word assertion this is the automaton after the
loop, which for an empty word did not run). -/
def add (ac : AC α) (word : List α) : Except (String × AC α) (AC α) :=
  if ac.built then .error ("adding new words after building is not allowed", ac)
  else
    let p := addLoop ac 0 word
    if p.2 = 0 then .error ("unable to add empty words", p.1)
    else
      .ok { p.1 with
              O := fun s => if s = p.2 then (p.1.O s).insert word else p.1.O s }

/-- Adding a list of words in order, stopping at the first error. -/
def addAll : AC α → List (List α) → Except (String × AC α) (AC α)
  | ac, [] => .ok ac
  | ac, w :: ws =>
    match add ac w with
    | .ok ac1 => addAll ac1 ws
    | .error e => .error e

/-- The fallback `while` loop, shared by `build` (lines 104-106) and the
non-deterministic branch of `search` (lines 166-167):
`while state != 0 and (state, a) not in G: state = F[state]`.
The fuel bounds the strictly depth-decreasing failure chain; every caller
passes `cnt`, which the proofs show is enough. -/
def fallbackB (F : Nat → Option Nat) (G : Nat × α → Option Nat) (a : α) :
    Nat → Nat → Nat
  | 0, state => state
  | fuel + 1, state =>
    if state ≠ 0 ∧ G (state, a) = none then
      fallbackB F G a fuel ((F state).getD 0)
    else state

/-- `F[s] = fs` (line 111). -/
def setF (ac : AC α) (s fs : Nat) : AC α :=
  { ac with F := fun x => if x = s then some fs else ac.F x }

/-- The conditional output merge `if fs in O: O[s] |= O[fs]` (lines 112-114);
key presence in the `defaultdict` is modelled as nonemptiness. -/
def mergeO (ac : AC α) (s fs : Nat) : AC α :=
  if ac.O fs = [] then ac
  else { ac with O := fun x => if x = s then (ac.O x).union (ac.O fs) else ac.O x }

/-- The `for a in W[r]` body of the build loop (lines 98-114): for each symbol,
push the child `s = G[r, a]`, compute its fallback state, set `F[s]`, and merge
outputs when the fallback state has any (`if fs in O`). Returns the updated
automaton and the list of pushed children, in order. -/
def processChildren (ac : AC α) (r : Nat) : List α → AC α × List Nat
  | [] => (ac, [])
  | a :: as =>
    let s := (ac.G (r, a)).getD 0
    let fs := (ac.G (fallbackB ac.F ac.G a ac.cnt ((ac.F r).getD 0), a)).getD 0
    let p := processChildren (mergeO (setF ac s fs) s fs) r as
    (p.1, s :: p.2)

/-- The `for a in W[f]` body of the deterministic closure (lines 120-122):
copy `G[f, a]` to `G[r, a]` whenever `(r, a)` has no transition yet. -/
def closureInner (r f : Nat) : AC α → List α → AC α
  | ac, [] => ac
  | ac, a :: as =>
    closureInner r f
      (if ac.G (r, a) = none then
        { ac with G := fun p => if p = (r, a) then ac.G (f, a) else ac.G p }
      else ac) as

/-- The deterministic closure `while` loop (lines 117-122): walk the failure
chain of `r` (`f = getF(f, 0)`), copying each visited state's transitions.
The fuel bounds the chain length. -/
def closureLoop (r : Nat) : Nat → AC α → Nat → AC α
  | 0, ac, _ => ac
  | fuel + 1, ac, f =>
    if f ≠ 0 then
      closureLoop r fuel
        (closureInner r ((ac.F f).getD 0) ac (ac.W ((ac.F f).getD 0)))
        ((ac.F f).getD 0)
    else ac

/-- The main `while queue` loop of `build` (lines 94-122).  One fuel unit per
popped state; the number of pops is the number of non-root states, which is
less than `cnt`, the fuel every caller passes. -/
def buildLoop (deter : Bool) : Nat → AC α → List Nat → AC α
  | 0, ac, _ => ac
  | _ + 1, ac, [] => ac
  | fuel + 1, ac, r :: queue =>
    let p := processChildren ac r (ac.W r)
    let ac2 := if deter then closureLoop r p.1.cnt p.1 r else p.1
    buildLoop deter fuel ac2 (queue ++ p.2)

/-- The initial-states loop of `build` (lines 89-92): seed the queue with the
root's children and set their failure links to the root. -/
def seed : AC α → List α → AC α × List Nat
  | ac, [] => (ac, [])
  | ac, a :: as =>
    let s := (ac.G (0, a)).getD 0
    let p := seed (setF ac s 0) as
    (p.1, s :: p.2)

/-- `AC.build`.  After the loop the alphabet table is discarded
(`self._W = None`), the failure table is discarded in deterministic mode
(`self.F = None`), and the flags are set. -/
def build (ac : AC α) (deterministic : Bool) : Except String (AC α) :=
  if ac.built then .error "already built"
  else
    let p := seed ac (ac.W 0)
    let ac2 := buildLoop deterministic p.1.cnt p.1 p.2
    .ok { ac2 with
            W := fun _ => [],
            F := if deterministic then fun _ => none else ac2.F,
            built := true,
            deter := deterministic }

/-- One scan step of the deterministic branch of `search` (line 157):
`state = getG((state, c), 0)`. -/
def stepDet (ac : AC α) (state : Nat) (c : α) : Nat :=
  (ac.G (state, c)).getD 0

/-- One scan step of the non-deterministic branch of `search` (lines 166-170):
follow failure links while no transition exists, then transition
(defaulting to the root). -/
def stepND (ac : AC α) (state : Nat) (c : α) : Nat :=
  (ac.G (fallbackB ac.F ac.G c ac.cnt state, c)).getD 0

/-- The deterministic scan loop of `search` (lines 155-162); `i` is the
1-based index of the next symbol, as produced by `enumerate(text, 1)`. -/
def searchDet (ac : AC α) : Nat → Nat → List α → List (List α × Int)
  | _, _, [] => []
  | state, i, c :: cs =>
    let s1 := stepDet ac state c
    ((ac.O s1).map fun w => (w, (i : Int) - w.length)) ++ searchDet ac s1 (i + 1) cs

/-- The non-deterministic scan loop of `search` (lines 164-175). -/
def searchND (ac : AC α) : Nat → Nat → List α → List (List α × Int)
  | _, _, [] => []
  | state, i, c :: cs =>
    let s1 := stepND ac state c
    ((ac.O s1).map fun w => (w, (i : Int) - w.length)) ++ searchND ac s1 (i + 1) cs

/-- `AC.search`, as the list of all pairs the generator yields, in order. -/
def search (ac : AC α) (text : List α) : Except String (List (List α × Int)) :=
  if ac.built then
    .ok (if ac.deter then searchDet ac 0 1 text else searchND ac 0 1 text)
  else .error "you need to build the automata before searching"

/-- Following transitions from a state along a word (specification-side view
of the trie built by `add`). -/
def reach (ac : AC α) : Nat → List α → Option Nat
  | s, [] => some s
  | s, c :: cs => (ac.G (s, c)).bind fun t => reach ac t cs

/-- `u` is in the prefix closure of the pattern list `ps`: it is empty or a
prefix of some pattern. -/
def InPC (ps : List (List α)) (u : List α) : Prop :=
  u = [] ∨ ∃ w ∈ ps, u <+: w

instance (ps : List (List α)) (u : List α) : Decidable (InPC ps u) := by
  unfold InPC; infer_instance

/-- The longest suffix of `u` lying in the prefix closure of `ps`
(the empty word always qualifies). -/
def maxSuf (ps : List (List α)) : List α → List α
  | [] => []
  | c :: rest => if InPC ps (c :: rest) then c :: rest else maxSuf ps rest

/-- The specified failure word of `u`: the longest proper suffix of `u` in the
prefix closure, i.e. the longest suffix of `u.tail` there. -/
def phi (ps : List (List α)) (u : List α) : List α := maxSuf ps u.tail

/-- The state reached from the root along `u` (meaningful when `u` is in the
prefix closure). -/
def stt (T : AC α) (u : List α) : Nat := (reach T 0 u).getD 0

/-- The failure chain of a state, read off the failure table with fuel. -/
def failChain (F : Nat → Option Nat) : Nat → Nat → List Nat
  | 0, _ => []
  | fuel + 1, s =>
    match F s with
    | some t => t :: failChain F fuel t
    | none => []

/-! ### Abstract layer: suffixes, the prefix closure, and longest suffixes

These are the specification-side notions the claims are phrased in:
`InPC ps u` says `u` is a path of the trie of `ps`, `maxSuf ps u` is the
longest suffix of `u` that is a trie path, and `phi ps u` is the specified
failure word (longest proper such suffix). -/

theorem InPC_nil (ps : List (List α)) : InPC ps [] := Or.inl rfl

theorem InPC_pref {ps : List (List α)} {u v : List α}
    (huv : u <+: v) (hv : InPC ps v) : InPC ps u := by
  rcases hv with h | ⟨w, hw, hvw⟩
  · subst h
    rcases List.prefix_nil.mp huv with rfl
    exact Or.inl rfl
  · exact Or.inr ⟨w, hw, huv.trans hvw⟩

theorem InPC_of_mem {ps : List (List α)} {w : List α} (h : w ∈ ps) : InPC ps w :=
  Or.inr ⟨w, h, List.prefix_rfl⟩

theorem InPC_perm {ps ps' : List (List α)} (h : ps.Perm ps') (u : List α) :
    InPC ps u ↔ InPC ps' u := by
  unfold InPC
  constructor <;> rintro (rfl | ⟨w, hw, hu⟩)
  · exact Or.inl rfl
  · exact Or.inr ⟨w, h.mem_iff.mp hw, hu⟩
  · exact Or.inl rfl
  · exact Or.inr ⟨w, h.mem_iff.mpr hw, hu⟩

theorem suffix_append_same {l₁ l₂ : List α} (t : List α) (h : l₁ <:+ l₂) :
    l₁ ++ t <:+ l₂ ++ t := by
  obtain ⟨p, rfl⟩ := h
  exact ⟨p, by simp⟩

/-- A suffix of `u ++ [a]` is empty or of the form `v ++ [a]` with `v` a
suffix of `u`. -/
theorem suffix_snoc_iff {s u : List α} {a : α} :
    s <:+ u ++ [a] ↔ s = [] ∨ ∃ v, v <:+ u ∧ s = v ++ [a] := by
  constructor
  · intro h
    rcases List.eq_nil_or_concat s with rfl | ⟨v, b, rfl⟩
    · exact Or.inl rfl
    · obtain ⟨p, hp⟩ := h
      rw [List.concat_eq_append] at hp
      rw [← List.append_assoc] at hp
      have := List.append_inj' hp rfl
      rcases this with ⟨h1, h2⟩
      have hb : b = a := by simpa using h2
      subst hb
      exact Or.inr ⟨v, ⟨p, h1⟩, by simp⟩
  · rintro (rfl | ⟨v, hv, rfl⟩)
    · exact List.nil_suffix
    · exact suffix_append_same [a] hv

/-- Two suffixes of the same list are comparable; the shorter is a suffix of
the longer. -/
theorem suffix_of_suffix_le {v₁ v₂ u : List α}
    (h1 : v₁ <:+ u) (h2 : v₂ <:+ u) (hl : v₁.length ≤ v₂.length) : v₁ <:+ v₂ := by
  rcases List.suffix_or_suffix_of_suffix h1 h2 with h | h
  · exact h
  · rw [List.IsSuffix.eq_of_length_le h hl]

/-- A proper suffix of `c :: rest` is a suffix of `rest`. -/
theorem proper_suffix_tail {v : List α} {c : α} {rest : List α}
    (h : v <:+ c :: rest) (hne : v ≠ c :: rest) : v <:+ rest := by
  rcases List.suffix_cons_iff.mp h with h | h
  · exact absurd h hne
  · exact h

theorem maxSuf_suffix (ps : List (List α)) : ∀ u : List α, maxSuf ps u <:+ u := by
  intro u
  induction u with
  | nil => exact List.suffix_rfl
  | cons c rest ih =>
    rw [maxSuf]
    split
    · exact List.suffix_rfl
    · exact ih.trans (List.suffix_cons c rest)

theorem maxSuf_InPC (ps : List (List α)) : ∀ u : List α, InPC ps (maxSuf ps u) := by
  intro u
  induction u with
  | nil => exact InPC_nil ps
  | cons c rest ih =>
    rw [maxSuf]
    split
    · next h => exact h
    · exact ih

theorem maxSuf_max {ps : List (List α)} :
    ∀ {u v : List α}, v <:+ u → InPC ps v → v <:+ maxSuf ps u := by
  intro u
  induction u with
  | nil =>
    intro v hv _
    rcases List.suffix_nil.mp hv with rfl
    exact List.suffix_rfl
  | cons c rest ih =>
    intro v hv hpc
    rw [maxSuf]
    split
    · next => exact hv
    · next h =>
      have hne : v ≠ c :: rest := by
        rintro rfl
        exact h hpc
      exact ih (proper_suffix_tail hv hne) hpc

theorem maxSuf_eq_self {ps : List (List α)} {u : List α} (h : InPC ps u) :
    maxSuf ps u = u := by
  cases u with
  | nil => rfl
  | cons c rest =>
    rw [maxSuf, if_pos h]

/-- Characterisation of `maxSuf`: anything that is a suffix, lies in the
prefix closure, and dominates all such suffixes, is `maxSuf`. -/
theorem maxSuf_char {ps : List (List α)} {u x : List α}
    (hsuf : x <:+ u) (hpc : InPC ps x)
    (hmax : ∀ v, v <:+ u → InPC ps v → v <:+ x) : maxSuf ps u = x := by
  have h1 : maxSuf ps u <:+ x := hmax _ (maxSuf_suffix ps u) (maxSuf_InPC ps u)
  have h2 : x <:+ maxSuf ps u := maxSuf_max hsuf hpc
  exact List.IsSuffix.eq_of_length_le h1 h2.length_le

/-- The scan-step recurrence: the longest trie-path suffix of `t ++ [c]` only
depends on the longest trie-path suffix of `t`. -/
theorem maxSuf_step (ps : List (List α)) (t : List α) (c : α) :
    maxSuf ps (t ++ [c]) = maxSuf ps (maxSuf ps t ++ [c]) := by
  refine maxSuf_char ?_ (maxSuf_InPC ps _) ?_
  · exact (maxSuf_suffix ps _).trans (suffix_append_same [c] (maxSuf_suffix ps t))
  · intro v hv hpc
    rcases suffix_snoc_iff.mp hv with rfl | ⟨v', hv', rfl⟩
    · exact List.nil_suffix
    · have hpc' : InPC ps v' := InPC_pref (List.prefix_append v' [c]) hpc
      exact maxSuf_max (suffix_append_same [c] (maxSuf_max hv' hpc')) hpc

/-- The fallback recurrence: when `w ++ [a]` is not a trie path, its longest
trie-path suffix is that of `phi ps w ++ [a]`. -/
theorem maxSuf_fall {ps : List (List α)} {w : List α} {a : α}
    (h : ¬ InPC ps (w ++ [a])) :
    maxSuf ps (w ++ [a]) = maxSuf ps (phi ps w ++ [a]) := by
  cases w with
  | nil => rfl
  | cons c w' =>
    have hstep : maxSuf ps ((c :: w') ++ [a]) = maxSuf ps (w' ++ [a]) := by
      rw [List.cons_append, maxSuf, if_neg]
      rw [← List.cons_append]
      exact h
    rw [hstep, phi]
    exact maxSuf_step ps w' a

/-- A pattern occurs as a suffix of `t` iff it is a suffix of `t`'s longest
trie-path suffix. -/
theorem mem_suffix_iff_maxSuf {ps : List (List α)} {w t : List α} (hw : w ∈ ps) :
    w <:+ t ↔ w <:+ maxSuf ps t := by
  constructor
  · intro h
    exact maxSuf_max h (InPC_of_mem hw)
  · intro h
    exact h.trans (maxSuf_suffix ps t)

theorem maxSuf_perm {ps ps' : List (List α)} (h : ps.Perm ps') :
    ∀ u : List α, maxSuf ps u = maxSuf ps' u := by
  intro u
  induction u with
  | nil => rfl
  | cons c rest ih =>
    rw [maxSuf, maxSuf]
    by_cases hc : InPC ps (c :: rest)
    · rw [if_pos hc, if_pos ((InPC_perm h _).mp hc)]
    · rw [if_neg hc, if_neg (fun hx => hc ((InPC_perm h _).mpr hx)), ih]

/-! ### The trie invariant established by `add` -/

theorem reach_append (ac : AC α) :
    ∀ (u v : List α) (s : Nat),
      reach ac s (u ++ v) = (reach ac s u).bind fun t => reach ac t v := by
  intro u
  induction u with
  | nil => intro v s; rfl
  | cons c cs ih =>
    intro v s
    rw [List.cons_append, reach, reach]
    cases hG : ac.G (s, c) with
    | some t =>
      simp only [Option.some_bind]
      exact ih v t
    | none => rfl

theorem reach_snoc (ac : AC α) (u : List α) (a : α) {s t : Nat}
    (h : reach ac s u = some t) :
    reach ac s (u ++ [a]) = ac.G (t, a) := by
  rw [reach_append, h]
  show reach ac t [a] = ac.G (t, a)
  rw [reach]
  cases hG : ac.G (t, a) with
  | some x => simp [reach]
  | none => rfl

/-- A nonempty reach value is a transition value. -/
theorem reach_is_G_value (ac : AC α) :
    ∀ (v : List α) (s t : Nat), v ≠ [] → reach ac s v = some t →
      ∃ p, ac.G p = some t := by
  intro v
  induction v with
  | nil => intro s t h; exact absurd rfl h
  | cons c cs ih =>
    intro s t _ h
    rw [reach] at h
    cases hG : ac.G (s, c) with
    | none => rw [hG] at h; exact absurd h (by simp)
    | some t₁ =>
      rw [hG] at h
      simp only [Option.some_bind] at h
      cases cs with
      | nil =>
        rw [reach] at h
        injection h with h
        exact ⟨(s, c), by rw [hG, h]⟩
      | cons c' cs' => exact ih t₁ t (by simp) h

/-- Structural invariant of the trie built by `add` over the pattern list
`ps`: states below `cnt` are in bijection (via `reach`) with the prefix
closure of `ps`, the alphabet table mirrors the transition table, transition
values avoid the root, and transition symbols occur in some pattern. -/
structure TrieStr (ac : AC α) (ps : List (List α)) : Prop where
  reach_iff : ∀ u : List α, (reach ac 0 u).isSome ↔ InPC ps u
  reach_inj : ∀ {u v : List α} {s : Nat},
    reach ac 0 u = some s → reach ac 0 v = some s → u = v
  state_reach : ∀ s, s < ac.cnt → ∃ u, reach ac 0 u = some s
  reach_lt : ∀ {u : List α} {s : Nat}, reach ac 0 u = some s → s < ac.cnt
  G_path : ∀ {s t : Nat} {a : α}, ac.G (s, a) = some t →
    ∃ u, reach ac 0 u = some s ∧ reach ac 0 (u ++ [a]) = some t
  G_ne : ∀ {s t : Nat} {a : α}, ac.G (s, a) = some t → t ≠ 0
  W_iff : ∀ s a, a ∈ ac.W s ↔ (ac.G (s, a)).isSome
  W_nodup : ∀ s, (ac.W s).Nodup
  cnt_pos : 1 ≤ ac.cnt
  G_sym : ∀ {s t : Nat} {a : α}, ac.G (s, a) = some t → ∃ u, InPC ps u ∧ a ∈ u

/-- Output invariant of the trie: `O s` holds exactly the already-added words
whose path ends at `s`. -/
def OTrie (ac : AC α) (ps : List (List α)) : Prop :=
  ∀ s w, w ∈ ac.O s ↔ w ∈ ps ∧ reach ac 0 w = some s

theorem reach_ne_zero {ac : AC α} {ps : List (List α)} (hT : TrieStr ac ps)
    {v : List α} {t : Nat} (hv : v ≠ []) (h : reach ac 0 v = some t) : t ≠ 0 := by
  obtain ⟨p, hp⟩ := reach_is_G_value ac v 0 t hv h
  obtain ⟨s', a'⟩ := p
  exact hT.G_ne hp

/-- `TrieStr` only depends on the pattern list through its prefix closure. -/
theorem TrieStr_congr {ac : AC α} {ps ps' : List (List α)}
    (hpc : ∀ u, InPC ps u ↔ InPC ps' u) (hT : TrieStr ac ps) : TrieStr ac ps' where
  reach_iff u := (hT.reach_iff u).trans (hpc u)
  reach_inj := hT.reach_inj
  state_reach := hT.state_reach
  reach_lt := hT.reach_lt
  G_path := hT.G_path
  G_ne := hT.G_ne
  W_iff := hT.W_iff
  W_nodup := hT.W_nodup
  cnt_pos := hT.cnt_pos
  G_sym h := by
    obtain ⟨u, hu, ha⟩ := hT.G_sym h
    exact ⟨u, (hpc u).mp hu, ha⟩

theorem InPC_append_sing (U : List (List α)) (x v : List α) :
    InPC (U ++ [x]) v ↔ InPC U v ∨ v <+: x := by
  unfold InPC
  simp only [List.mem_append, List.mem_singleton]
  constructor
  · rintro (rfl | ⟨w, hw | rfl, hv⟩)
    · exact Or.inl (Or.inl rfl)
    · exact Or.inl (Or.inr ⟨w, hw, hv⟩)
    · exact Or.inr hv
  · rintro ((rfl | ⟨w, hw, hv⟩) | hv)
    · exact Or.inl rfl
    · exact Or.inr ⟨w, Or.inl hw, hv⟩
    · exact Or.inr ⟨x, Or.inr rfl, hv⟩

theorem InPC_mono_append (U V : List (List α)) {v : List α} (h : InPC U v) :
    InPC (U ++ V) v := by
  rcases h with rfl | ⟨w, hw, hv⟩
  · exact Or.inl rfl
  · exact Or.inr ⟨w, List.mem_append_left V hw, hv⟩

/-- Appending a word already in the prefix closure does not change it. -/
theorem InPC_append_absorb {U : List (List α)} {x : List α} (hx : InPC U x) :
    ∀ v, InPC (U ++ [x]) v ↔ InPC U v := by
  intro v
  rw [InPC_append_sing]
  constructor
  · rintro (h | h)
    · exact h
    · exact InPC_pref h hx
  · exact Or.inl

theorem reach_mono_of {ac ac2 : AC α}
    (hsub : ∀ p t, ac.G p = some t → ac2.G p = some t) :
    ∀ (v : List α) (s₀ t : Nat), reach ac s₀ v = some t → reach ac2 s₀ v = some t := by
  intro v
  induction v with
  | nil => intro s₀ t h; exact h
  | cons c cs ih =>
    intro s₀ t h
    rw [reach] at h ⊢
    cases hG : ac.G (s₀, c) with
    | none => rw [hG] at h; exact absurd h (by simp)
    | some t₁ =>
      rw [hG] at h
      simp only [Option.some_bind] at h
      rw [hsub _ _ hG]
      simp only [Option.some_bind]
      exact ih t₁ t h

/-- Bundled result of the `add` loop: the new automaton is the trie of the old
patterns plus the walked word, whose path ends at the returned state; old
reaches are preserved and the other tables are untouched. -/
structure AddLoopRes (ac acr : AC α) (U : List (List α)) (full : List α)
    (res : Nat) : Prop where
  str : TrieStr acr (U ++ [full])
  ends : reach acr 0 full = some res
  mono : ∀ (v : List α) (t : Nat), reach ac 0 v = some t → reach acr 0 v = some t
  O_eq : acr.O = ac.O
  F_eq : acr.F = ac.F
  built_eq : acr.built = ac.built
  deter_eq : acr.deter = ac.deter
  cnt_le : ac.cnt ≤ acr.cnt

/-- The one-symbol extension of the trie: adding the fresh transition
`(s, c) ↦ cnt` preserves the trie invariant with the new path recorded. -/
theorem TrieStr_extend {ac : AC α} {U : List (List α)} {u : List α} {s : Nat}
    {c : α} (hT : TrieStr ac U) (hu : reach ac 0 u = some s)
    (hnone : ac.G (s, c) = none) :
    let ac2 : AC α :=
      { ac with
          W := fun x => if x = s then (ac.W x).insert c else ac.W x,
          G := fun p => if p = (s, c) then some ac.cnt else ac.G p,
          cnt := ac.cnt + 1 }
    TrieStr ac2 (U ++ [u ++ [c]]) ∧ reach ac2 0 (u ++ [c]) = some ac.cnt ∧
      (∀ (v : List α) (t : Nat), reach ac 0 v = some t → reach ac2 0 v = some t) := by
  intro ac2
  have hs_lt : s < ac.cnt := hT.reach_lt hu
  have hs_ne : s ≠ ac.cnt := Nat.ne_of_lt hs_lt
  have hsub : ∀ p t, ac.G p = some t → ac2.G p = some t := by
    intro p t h
    show (if p = (s, c) then some ac.cnt else ac.G p) = some t
    by_cases hp : p = (s, c)
    · rw [hp] at h; rw [h] at hnone; exact absurd hnone (by simp)
    · rw [if_neg hp]; exact h
  have hL1 : ∀ (v : List α) (t : Nat), reach ac 0 v = some t → reach ac2 0 v = some t :=
    fun v t h => reach_mono_of hsub v 0 t h
  have hG2sc : ac2.G (s, c) = some ac.cnt := by
    show (if ((s, c) : Nat × α) = (s, c) then some ac.cnt else ac.G (s, c)) = some ac.cnt
    rw [if_pos rfl]
  have hG2other : ∀ p, p ≠ ((s, c) : Nat × α) → ac2.G p = ac.G p := by
    intro p hp
    show (if p = (s, c) then some ac.cnt else ac.G p) = ac.G p
    rw [if_neg hp]
  have hfresh : ∀ a' : α, ac.G (ac.cnt, a') = none := by
    intro a'
    cases hG : ac.G (ac.cnt, a') with
    | none => rfl
    | some t =>
      obtain ⟨u', hu', _⟩ := hT.G_path hG
      exact absurd (hT.reach_lt hu') (by omega)
  have hfresh2 : ∀ a' : α, ac2.G (ac.cnt, a') = none := by
    intro a'
    rw [hG2other (ac.cnt, a') (by simp [Prod.ext_iff]; intro h; exact absurd h.symm hs_ne)]
    exact hfresh a'
  -- the new-reach characterisation
  have hL2 : ∀ (v : List α) (s₀ t : Nat), reach ac2 s₀ v = some t →
      reach ac s₀ v = some t ∨
        (t = ac.cnt ∧ ∃ v', v = v' ++ [c] ∧ reach ac s₀ v' = some s) := by
    intro v
    induction v with
    | nil => intro s₀ t h; exact Or.inl h
    | cons x rest ih =>
      intro s₀ t h
      rw [reach] at h
      by_cases hp : ((s₀, x) : Nat × α) = (s, c)
      · rw [hp, hG2sc] at h
        simp only [Option.some_bind] at h
        injection hp with hp1 hp2
        subst hp1; subst hp2
        cases rest with
        | nil =>
          rw [reach] at h
          injection h with h
          exact Or.inr ⟨h.symm, [], by simp, rfl⟩
        | cons y rest' =>
          rw [reach, hfresh2 y] at h
          exact absurd h (by simp)
      · rw [hG2other _ hp] at h
        cases hG : ac.G (s₀, x) with
        | none => rw [hG] at h; exact absurd h (by simp)
        | some t₁ =>
          rw [hG] at h
          simp only [Option.some_bind] at h
          rcases ih t₁ t h with hold | ⟨rfl, v', rfl, hv'⟩
          · refine Or.inl ?_
            rw [reach, hG]
            simp only [Option.some_bind]
            exact hold
          · refine Or.inr ⟨rfl, x :: v', rfl, ?_⟩
            rw [reach, hG]
            simp only [Option.some_bind]
            exact hv'
  have hends : reach ac2 0 (u ++ [c]) = some ac.cnt := by
    rw [reach_snoc ac2 u c (hL1 u s hu)]
    exact hG2sc
  have hInPCu : InPC U u := (hT.reach_iff u).mp (by rw [hu]; rfl)
  refine ⟨?_, hends, hL1⟩
  constructor
  · -- reach_iff
    intro v
    constructor
    · intro hv
      cases hr : reach ac2 0 v with
      | none => rw [hr] at hv; exact absurd hv (by simp)
      | some t =>
        rcases hL2 v 0 t hr with hold | ⟨_, v', rfl, hv'⟩
        · exact InPC_mono_append U [u ++ [c]]
            ((hT.reach_iff v).mp (by rw [hold]; rfl))
        · have : v' = u := hT.reach_inj hv' hu
          subst this
          exact (InPC_append_sing U (v' ++ [c]) (v' ++ [c])).mpr
            (Or.inr List.prefix_rfl)
    · intro hv
      rcases (InPC_append_sing U (u ++ [c]) v).mp hv with hv | hv
      · have := (hT.reach_iff v).mpr hv
        cases hr : reach ac 0 v with
        | none => rw [hr] at this; exact absurd this (by simp)
        | some t => rw [hL1 v t hr]; rfl
      · rcases List.prefix_concat_iff.mp hv with rfl | hv
        · rw [hends]; rfl
        · have hvu : InPC U v := InPC_pref hv hInPCu
          have := (hT.reach_iff v).mpr hvu
          cases hr : reach ac 0 v with
          | none => rw [hr] at this; exact absurd this (by simp)
          | some t => rw [hL1 v t hr]; rfl
  · -- reach_inj
    intro v₁ v₂ t h1 h2
    rcases hL2 v₁ 0 t h1 with ho1 | ⟨rfl, v₁', rfl, hv1⟩
    · rcases hL2 v₂ 0 t h2 with ho2 | ⟨hcnt, _, _, _⟩
      · exact hT.reach_inj ho1 ho2
      · exact absurd (hT.reach_lt ho1) (by omega)
    · rcases hL2 v₂ 0 (ac.cnt) h2 with ho2 | ⟨_, v₂', rfl, hv2⟩
      · exact absurd (hT.reach_lt ho2) (by omega)
      · rw [hT.reach_inj hv1 hv2]
  · -- state_reach
    intro t ht
    have ht' : t < ac.cnt + 1 := ht
    by_cases htc : t = ac.cnt
    · subst htc
      exact ⟨u ++ [c], hends⟩
    · obtain ⟨v, hv⟩ := hT.state_reach t (by omega)
      exact ⟨v, hL1 v t hv⟩
  · -- reach_lt
    intro v t h
    show t < ac.cnt + 1
    rcases hL2 v 0 t h with hold | ⟨rfl, _⟩
    · have := hT.reach_lt hold
      omega
    · omega
  · -- G_path
    intro s' t' a' h
    by_cases hp : ((s', a') : Nat × α) = (s, c)
    · obtain ⟨rfl, rfl⟩ := Prod.mk.injEq .. ▸ hp
      exact ⟨u, hL1 u s' hu, by rw [hG2sc] at h; rw [hends]; rw [← h]⟩
    · rw [hG2other _ hp] at h
      obtain ⟨v, hv1, hv2⟩ := hT.G_path h
      exact ⟨v, hL1 v s' hv1, hL1 _ t' hv2⟩
  · -- G_ne
    intro s' t' a' h
    by_cases hp : ((s', a') : Nat × α) = (s, c)
    · rw [hp, hG2sc] at h
      injection h with h
      omega
    · rw [hG2other _ hp] at h
      exact hT.G_ne h
  · -- W_iff
    intro x b
    show b ∈ (if x = s then (ac.W x).insert c else ac.W x) ↔
      (if ((x, b) : Nat × α) = (s, c) then some ac.cnt else ac.G (x, b)).isSome
    by_cases hxs : x = s
    · subst hxs
      rw [if_pos rfl, List.mem_insert_iff]
      by_cases hbc : b = c
      · subst hbc
        rw [if_pos rfl]
        simp
      · rw [if_neg (by simp [Prod.ext_iff, hbc]), hT.W_iff]
        simp [hbc]
    · rw [if_neg hxs,
        if_neg (show ¬(((x, b) : Nat × α) = (s, c)) by
          simp only [Prod.mk.injEq, not_and]
          intro h
          exact absurd h hxs),
        hT.W_iff]

  · -- W_nodup
    intro s'
    show List.Nodup (if s' = s then (ac.W s').insert c else ac.W s')
    by_cases hss : s' = s
    · rw [if_pos hss]; exact (hT.W_nodup s').insert
    · rw [if_neg hss]; exact hT.W_nodup s'
  · -- cnt_pos
    show 1 ≤ ac.cnt + 1
    omega
  · -- G_sym
    intro s₁ t₁ a₁ h
    by_cases hp : ((s₁, a₁) : Nat × α) = (s, c)
    · injection hp with hp1 hp2
      refine ⟨u ++ [c],
        (InPC_append_sing U (u ++ [c]) (u ++ [c])).mpr (Or.inr List.prefix_rfl), ?_⟩
      rw [hp2]
      simp
    · rw [hG2other _ hp] at h
      obtain ⟨v, hv, ha⟩ := hT.G_sym h
      exact ⟨v, InPC_mono_append U _ hv, ha⟩

theorem reach_congr {ac ac' : AC α} (hG : ac'.G = ac.G) :
    ∀ (v : List α) (s : Nat), reach ac' s v = reach ac s v := by
  intro v
  induction v with
  | nil => intro s; rfl
  | cons c cs ih =>
    intro s
    rw [reach, reach, hG]
    cases ac.G (s, c) with
    | none => rfl
    | some t =>
      simp only [Option.some_bind]
      exact ih t

/-- `TrieStr` only looks at the transition table, the counter and the
alphabet table. -/
theorem TrieStr_of_eq {ac ac' : AC α} {ps : List (List α)} (hG : ac'.G = ac.G)
    (hc : ac'.cnt = ac.cnt) (hW : ac'.W = ac.W) (hT : TrieStr ac ps) :
    TrieStr ac' ps where
  reach_iff u := by rw [reach_congr hG]; exact hT.reach_iff u
  reach_inj h1 h2 := by
    rw [reach_congr hG] at h1 h2
    exact hT.reach_inj h1 h2
  state_reach s hs := by
    rw [hc] at hs
    obtain ⟨u, hu⟩ := hT.state_reach s hs
    exact ⟨u, by rw [reach_congr hG]; exact hu⟩
  reach_lt h := by
    rw [reach_congr hG] at h
    rw [hc]
    exact hT.reach_lt h
  G_path h := by
    rw [hG] at h
    obtain ⟨u, h1, h2⟩ := hT.G_path h
    exact ⟨u, by rw [reach_congr hG]; exact h1, by rw [reach_congr hG]; exact h2⟩
  G_ne h := by
    rw [hG] at h
    exact hT.G_ne h
  W_iff s a := by
    rw [hW, hG]
    exact hT.W_iff s a
  W_nodup s := by
    rw [hW]
    exact hT.W_nodup s
  cnt_pos := by
    rw [hc]
    exact hT.cnt_pos
  G_sym h := by
    rw [hG] at h
    exact hT.G_sym h

theorem InPC_absorb_mid {U : List (List α)} {x y : List α} (hxy : x <+: y)
    (v : List α) : InPC ((U ++ [x]) ++ [y]) v ↔ InPC (U ++ [y]) v := by
  rw [InPC_append_sing, InPC_append_sing, InPC_append_sing]
  constructor
  · rintro ((h | h) | h)
    · exact Or.inl h
    · exact Or.inr (h.trans hxy)
    · exact Or.inr h
  · rintro (h | h)
    · exact Or.inl (Or.inl h)
    · exact Or.inr h

theorem addLoop_spec :
    ∀ (cs : List α) (ac : AC α) (s : Nat) (u : List α) (U : List (List α)),
      TrieStr ac U → reach ac 0 u = some s →
      AddLoopRes ac (addLoop ac s cs).1 U (u ++ cs) (addLoop ac s cs).2 := by
  intro cs
  induction cs with
  | nil =>
    intro ac s u U hT hu
    rw [List.append_nil]
    have hInPCu : InPC U u := (hT.reach_iff u).mp (by rw [hu]; rfl)
    exact ⟨TrieStr_congr (fun v => (InPC_append_absorb hInPCu v).symm) hT, hu,
      fun v t h => h, rfl, rfl, rfl, rfl, Nat.le_refl _⟩
  | cons c cs ih =>
    intro ac s u U hT hu
    simp only [addLoop]
    split
    · -- the transition already exists: the alphabet insert is a no-op
      next t hmatch =>
      have hmatch' : ac.G (s, c) = some t := hmatch
      have hmem : c ∈ ac.W s := (hT.W_iff s c).mpr (by rw [hmatch']; rfl)
      have hW : (fun x => if x = s then (ac.W x).insert c else ac.W x) = ac.W := by
        funext x
        by_cases hx : x = s
        · subst hx
          rw [if_pos rfl, List.insert_of_mem hmem]
        · rw [if_neg hx]
      have hac1 :
          ({ ac with W := fun x => if x = s then (ac.W x).insert c else ac.W x } :
            AC α) = ac := by
        rw [hW]
      rw [hac1]
      have hreach : reach ac 0 (u ++ [c]) = some t := by
        rw [reach_snoc ac u c hu]
        exact hmatch'
      have h2 := ih ac t (u ++ [c]) U hT hreach
      rw [List.append_cons]
      exact h2
    · -- fresh transition
      next hmatch =>
      have hnone : ac.G (s, c) = none := hmatch
      have h3 := TrieStr_extend hT hu hnone
      have h4 := ih _ ac.cnt (u ++ [c]) (U ++ [u ++ [c]]) h3.1 h3.2.1
      rw [List.append_cons]
      refine ⟨TrieStr_congr (fun v => InPC_absorb_mid (List.prefix_append _ cs) v)
        h4.str, h4.ends, fun v t h => h4.mono v t (h3.2.2 v t h),
        h4.O_eq, h4.F_eq, h4.built_eq, h4.deter_eq, ?_⟩
      have h5 : ac.cnt + 1 ≤ (addLoop _ ac.cnt cs).1.cnt := h4.cnt_le
      omega

theorem TrieStr_init : TrieStr (init : AC α) [] where
  reach_iff u := by
    cases u with
    | nil => simp [reach, InPC, init]
    | cons c cs => simp [reach, InPC, init]
  reach_inj {u v s} h1 h2 := by
    cases u with
    | nil =>
      cases v with
      | nil => rfl
      | cons c cs => simp [reach, init] at h2
    | cons c cs => simp [reach, init] at h1
  state_reach s hs := by
    have h1 : (init : AC α).cnt = 1 := rfl
    have h2 : s = 0 := by omega
    subst h2
    exact ⟨[], rfl⟩
  reach_lt {u s} h := by
    cases u with
    | nil =>
      injection h with h
      subst h
      show 0 < init.cnt
      exact Nat.one_pos
    | cons c cs => simp [reach, init] at h
  G_path {s t a} h := by simp [init] at h
  G_ne {s t a} h := by simp [init] at h
  W_iff s a := by simp [init]
  W_nodup s := by simp [init]
  cnt_pos := Nat.le_refl 1
  G_sym {s t a} h := by simp [init] at h

theorem OTrie_init : OTrie (init : AC α) [] := by
  intro s w
  simp [init]

/-- Transporting the output invariant across the final output insertion of
`add`: `acr` is `acL` (the automaton after the `add` loop on `w`) with `w`
inserted into the output set of the final state `m`. -/
theorem OTrie_after_add {ac acL acr : AC α} {U : List (List α)} {w : List α}
    {m : Nat} (hT : TrieStr ac U) (hO : OTrie ac U)
    (h : AddLoopRes ac acL U w m) (hGr : acr.G = acL.G)
    (hOr : acr.O = fun s => if s = m then (acL.O s).insert w else acL.O s) :
    OTrie acr (U ++ [w]) := by
  have hiff : ∀ (v : List α) (t : Nat), InPC U v →
      (reach acL 0 v = some t ↔ reach ac 0 v = some t) := by
    intro v t hv
    constructor
    · intro hnew
      have h0 : (reach ac 0 v).isSome = true := (hT.reach_iff v).mpr hv
      cases hold : reach ac 0 v with
      | none => rw [hold] at h0; exact absurd h0 (by simp)
      | some t₀ =>
        have hmn := h.mono v t₀ hold
        rw [hmn] at hnew
        injection hnew with hnew
        exact congrArg some hnew
    · exact h.mono v t
  intro s w'
  rw [hOr, reach_congr hGr]
  dsimp only
  have hOeq : acL.O = ac.O := h.O_eq
  by_cases hss : s = m
  · subst hss
    rw [if_pos rfl, List.mem_insert_iff, hOeq]
    constructor
    · rintro (rfl | hmem)
      · exact ⟨List.mem_append_right U (by simp), h.ends⟩
      · obtain ⟨hU, hr⟩ := (hO _ w').mp hmem
        exact ⟨List.mem_append_left _ hU, h.mono w' _ hr⟩
    · rintro ⟨hmem, hr⟩
      rcases List.mem_append.mp hmem with hU | hw'
      · exact Or.inr ((hO _ w').mpr ⟨hU, (hiff w' _ (InPC_of_mem hU)).mp hr⟩)
      · exact Or.inl (List.mem_singleton.mp hw')
  · rw [if_neg hss, hOeq]
    constructor
    · intro hmem
      obtain ⟨hU, hr⟩ := (hO s w').mp hmem
      exact ⟨List.mem_append_left _ hU, h.mono w' s hr⟩
    · rintro ⟨hmem, hr⟩
      rcases List.mem_append.mp hmem with hU | hw'
      · exact (hO s w').mpr ⟨hU, (hiff w' s (InPC_of_mem hU)).mp hr⟩
      · rw [List.mem_singleton.mp hw'] at hr ⊢
        rw [h.ends] at hr
        injection hr with hr
        exact absurd hr.symm hss

theorem add_ok {ac : AC α} {U : List (List α)} (hT : TrieStr ac U)
    (hO : OTrie ac U) (hb : ac.built = false) {w : List α} (hw : w ≠ []) :
    ∃ ac', add ac w = .ok ac' ∧ TrieStr ac' (U ++ [w]) ∧ OTrie ac' (U ++ [w]) ∧
      ac'.F = ac.F ∧ ac'.built = false ∧ ac'.deter = ac.deter := by
  have h := addLoop_spec w ac 0 [] U hT rfl
  rw [List.nil_append] at h
  have hz : (addLoop ac 0 w).2 ≠ 0 := reach_ne_zero h.str hw h.ends
  have hadd : add ac w = .ok { (addLoop ac 0 w).1 with
      O := fun s => if s = (addLoop ac 0 w).2
        then ((addLoop ac 0 w).1.O s).insert w
        else (addLoop ac 0 w).1.O s } := by
    simp only [add, hb, Bool.false_eq_true, if_false]
    rw [if_neg hz]
  refine ⟨_, hadd, ?_, ?_, ?_, ?_, ?_⟩
  · refine TrieStr_of_eq ?_ ?_ ?_ h.str <;> rfl
  · refine OTrie_after_add hT hO h ?_ ?_ <;> rfl
  · refine Eq.trans ?_ h.F_eq
    rfl
  · refine Eq.trans ?_ (h.built_eq.trans hb)
    rfl
  · refine Eq.trans ?_ h.deter_eq
    rfl

theorem addAll_spec :
    ∀ (ps : List (List α)) (ac : AC α) (U : List (List α)),
      TrieStr ac U → OTrie ac U → ac.built = false → (∀ w ∈ ps, w ≠ []) →
      ∃ T, addAll ac ps = .ok T ∧ TrieStr T (U ++ ps) ∧ OTrie T (U ++ ps) ∧
        T.F = ac.F ∧ T.built = false ∧ T.deter = ac.deter := by
  intro ps
  induction ps with
  | nil =>
    intro ac U hT hO hb _
    exact ⟨ac, rfl, by simpa using hT, by simpa using hO, rfl, hb, rfl⟩
  | cons w ws ih =>
    intro ac U hT hO hb hne
    obtain ⟨ac1, hadd, hT1, hO1, hF1, hb1, hd1⟩ := add_ok hT hO hb (hne w (by simp))
    obtain ⟨T, haddAll, hT2, hO2, hF2, hb2, hd2⟩ :=
      ih ac1 (U ++ [w]) hT1 hO1 hb1 (fun v hv => hne v (by simp [hv]))
    refine ⟨T, ?_, ?_, ?_, ?_, hb2, ?_⟩
    · simp only [addAll, hadd]
      exact haddAll
    · rw [List.append_cons]
      exact hT2
    · rw [List.append_cons]
      exact hO2
    · rw [hF2, hF1]
    · rw [hd2, hd1]

/-- Running `addAll` from the fresh automaton on nonempty patterns succeeds
and produces the trie of those patterns, with failure table still empty. -/
theorem addAll_init {ps : List (List α)} (hne : ∀ w ∈ ps, w ≠ []) :
    ∃ T, addAll (init : AC α) ps = .ok T ∧ TrieStr T ps ∧ OTrie T ps ∧
      T.F = (fun _ => (none : Option Nat)) ∧ T.built = false ∧ T.deter = false := by
  obtain ⟨T, h1, h2, h3, h4, h5, h6⟩ :=
    addAll_spec ps (init : AC α) [] TrieStr_init OTrie_init rfl hne
  rw [List.nil_append] at h2 h3
  exact ⟨T, h1, h2, h3, h4, h5, h6⟩

/-! ### The breadth-first build phase

Throughout this section `T` is the trie produced by the `add` phase and `ps`
the list of added patterns; `stt T u` is the state of the trie path `u`. -/

theorem stt_some {ps : List (List α)} {T : AC α} (hT : TrieStr T ps)
    {u : List α} (hu : InPC ps u) : reach T 0 u = some (stt T u) := by
  have h := (hT.reach_iff u).mpr hu
  cases hr : reach T 0 u with
  | none => rw [hr] at h; exact absurd h (by simp)
  | some s => rw [stt, hr]; rfl

theorem stt_inj {ps : List (List α)} {T : AC α} (hT : TrieStr T ps)
    {u v : List α} (hu : InPC ps u) (hv : InPC ps v)
    (h : stt T u = stt T v) : u = v :=
  hT.reach_inj (stt_some hT hu) (h ▸ stt_some hT hv)

theorem stt_nil (T : AC α) : stt T [] = 0 := rfl

theorem stt_ne_zero {ps : List (List α)} {T : AC α} (hT : TrieStr T ps)
    {u : List α} (hu : InPC ps u) (hune : u ≠ []) : stt T u ≠ 0 :=
  reach_ne_zero hT hune (stt_some hT hu)

theorem stt_lt {ps : List (List α)} {T : AC α} (hT : TrieStr T ps)
    {u : List α} (hu : InPC ps u) : stt T u < T.cnt :=
  hT.reach_lt (stt_some hT hu)

/-- The transition out of a trie path's state is the state of the extended
path (or absent when the extension is not a path). -/
theorem G_stt {ps : List (List α)} {T : AC α} (hT : TrieStr T ps)
    {u : List α} (hu : InPC ps u) (a : α) :
    T.G (stt T u, a) =
      if InPC ps (u ++ [a]) then some (stt T (u ++ [a])) else none := by
  have hs := reach_snoc T u a (stt_some hT hu)
  by_cases hpc : InPC ps (u ++ [a])
  · rw [if_pos hpc, ← hs]
    exact stt_some hT hpc
  · rw [if_neg hpc]
    cases hG : T.G (stt T u, a) with
    | none => rfl
    | some t =>
      exfalso
      apply hpc
      apply (hT.reach_iff (u ++ [a])).mp
      rw [hs, hG]
      rfl

theorem W_stt {ps : List (List α)} {T : AC α} (hT : TrieStr T ps)
    {u : List α} (hu : InPC ps u) (a : α) :
    a ∈ T.W (stt T u) ↔ InPC ps (u ++ [a]) := by
  rw [hT.W_iff, G_stt hT hu a]
  by_cases hpc : InPC ps (u ++ [a])
  · simp [hpc]
  · simp [hpc]

/-- A trie path is shorter than the number of states. -/
theorem len_lt_cnt {ps : List (List α)} {T : AC α} (hT : TrieStr T ps)
    {u : List α} (hu : InPC ps u) : u.length < T.cnt := by
  have hinj : ∀ i ∈ Finset.range (u.length + 1), ∀ j ∈ Finset.range (u.length + 1),
      stt T (u.take i) = stt T (u.take j) → i = j := by
    intro i hi j hj hij
    simp only [Finset.mem_range] at hi hj
    have hpi : InPC ps (u.take i) := InPC_pref (List.take_prefix i u) hu
    have hpj : InPC ps (u.take j) := InPC_pref (List.take_prefix j u) hu
    have := stt_inj hT hpi hpj hij
    have hli : (u.take i).length = i := by
      rw [List.length_take]
      omega
    have hlj : (u.take j).length = j := by
      rw [List.length_take]
      omega
    rw [← hli, ← hlj, this]
  have hmaps : ∀ i ∈ Finset.range (u.length + 1),
      stt T (u.take i) ∈ Finset.range T.cnt := by
    intro i _
    rw [Finset.mem_range]
    exact stt_lt hT (InPC_pref (List.take_prefix i u) hu)
  have := Finset.card_le_card_of_injOn (fun i => stt T (u.take i)) hmaps
    (fun i hi j hj h => hinj i hi j hj h)
  simp only [Finset.card_range] at this
  omega

theorem phi_suffix {ps : List (List α)} {u : List α} (hu : u ≠ []) :
    phi ps u <:+ u ∧ phi ps u ≠ u := by
  cases u with
  | nil => exact absurd rfl hu
  | cons c rest =>
    have h1 : phi ps (c :: rest) <:+ rest := maxSuf_suffix ps rest
    constructor
    · exact h1.trans (List.suffix_cons c rest)
    · intro h
      have := h ▸ h1.length_le
      simp at this

theorem phi_length {ps : List (List α)} {u : List α} (hu : u ≠ []) :
    (phi ps u).length < u.length := by
  obtain ⟨h1, h2⟩ := @phi_suffix α _ ps u hu
  rcases Nat.lt_or_ge (phi ps u).length u.length with h | h
  · exact h
  · exact absurd (List.IsSuffix.eq_of_length_le h1 h) h2

theorem phi_InPC (ps : List (List α)) (u : List α) : InPC ps (phi ps u) :=
  maxSuf_InPC ps u.tail

/-- Chain lemma: a proper trie-path suffix of `u` is a suffix of `phi u`. -/
theorem suffix_phi {ps : List (List α)} {u x : List α} (hx : x <:+ u)
    (hxu : x ≠ u) (hpc : InPC ps x) : x <:+ phi ps u := by
  cases u with
  | nil =>
    rcases List.suffix_nil.mp hx with rfl
    exact absurd rfl hxu
  | cons c rest => exact maxSuf_max (proper_suffix_tail hx hxu) hpc

/-- The failure recurrence along a child edge. -/
theorem phi_snoc {ps : List (List α)} {u : List α} (hu : u ≠ []) (a : α) :
    phi ps (u ++ [a]) = maxSuf ps (phi ps u ++ [a]) := by
  cases u with
  | nil => exact absurd rfl hu
  | cons c rest =>
    show maxSuf ps ((c :: rest ++ [a]).tail) = _
    rw [List.cons_append, List.tail_cons]
    exact maxSuf_step ps rest a

/-- The root has no outputs in the trie (patterns are nonempty). -/
theorem T_O0 {ps : List (List α)} {T : AC α} (hT : TrieStr T ps)
    (hO : OTrie T ps) (hne : ∀ w ∈ ps, w ≠ []) : T.O 0 = [] := by
  rw [List.eq_nil_iff_forall_not_mem]
  intro w hw
  obtain ⟨hwps, hr⟩ := (hO 0 w).mp hw
  exact reach_ne_zero hT (hne w hwps) hr rfl

/-- Correctness of the fallback loop: starting from the state of a trie path
`x` whose failure chain is correctly recorded, the loop followed by the final
transition lookup lands on the state of the longest trie-path suffix of
`x ++ [a]`.  The `hGa` hypothesis characterises the transition table on the
chain (it is satisfied both by the plain trie table and by the
deterministically closed table). -/
theorem fallback_correct {ps : List (List α)} {T : AC α} (hT : TrieStr T ps)
    {ac : AC α} {a : α} :
    ∀ (fuel : Nat) (x : List α), InPC ps x →
      (∀ y, y <:+ x → y ≠ [] → InPC ps y →
        ac.F (stt T y) = some (stt T (phi ps y))) →
      (∀ y, y <:+ x → InPC ps y →
        (∀ t', ac.G (stt T y, a) = some t' →
          maxSuf ps (y ++ [a]) ≠ [] ∧ t' = stt T (maxSuf ps (y ++ [a]))) ∧
        (ac.G (stt T y, a) = none → ¬ InPC ps (y ++ [a]))) →
      x.length + 1 ≤ fuel →
      (ac.G (fallbackB ac.F ac.G a fuel (stt T x), a)).getD 0 =
        stt T (maxSuf ps (x ++ [a])) := by
  intro fuel
  induction fuel with
  | zero =>
    intro x _ _ _ hfuel
    omega
  | succ f ih =>
    intro x hx hF hGa hfuel
    rw [fallbackB]
    cases x with
    | nil =>
      rw [if_neg (by simp [stt_nil])]
      rw [stt_nil]
      cases hG : ac.G (0, a) with
      | some t' =>
        obtain ⟨_, ht'⟩ := (hGa [] List.suffix_rfl (InPC_nil ps)).1 t'
          (by rw [← stt_nil T] at hG; exact hG)
        rw [Option.getD_some, ht']
      | none =>
        have hnpc : ¬ InPC ps ([] ++ [a]) :=
          (hGa [] List.suffix_rfl (InPC_nil ps)).2 (by rw [stt_nil]; exact hG)
        rw [Option.getD_none]
        rw [List.nil_append] at hnpc ⊢
        have : maxSuf ps [a] = [] := by
          show (if InPC ps (a :: []) then a :: [] else maxSuf ps []) = []
          rw [if_neg hnpc]
          rfl
        rw [this, stt_nil]
    | cons c x' =>
      have hxne : (c :: x') ≠ [] := by simp
      have hstt0 : stt T (c :: x') ≠ 0 := stt_ne_zero hT hx hxne
      cases hG : ac.G (stt T (c :: x'), a) with
      | some t' =>
        rw [if_neg (by simp [hG])]
        obtain ⟨_, ht'⟩ := (hGa (c :: x') List.suffix_rfl hx).1 t' hG
        rw [hG, Option.getD_some, ht']
      | none =>
        rw [if_pos ⟨hstt0, rfl⟩]
        rw [hF (c :: x') List.suffix_rfl hxne hx, Option.getD_some]
        have hnpc : ¬ InPC ps ((c :: x') ++ [a]) :=
          (hGa (c :: x') List.suffix_rfl hx).2 hG
        have hphisuf : phi ps (c :: x') <:+ c :: x' := (phi_suffix hxne).1
        have hres := ih (phi ps (c :: x')) (phi_InPC ps (c :: x'))
          (fun y hy hyne hypc => hF y (hy.trans hphisuf) hyne hypc)
          (fun y hy hypc => hGa y (hy.trans hphisuf) hypc)
          (by have := @phi_length α _ ps _ hxne; omega)
        rw [hres, ← maxSuf_fall hnpc]

/-- The deterministic closure inner loop only writes the processed state's
row, copying the chain state's value into absent entries. -/
theorem closureInner_spec {r f : Nat} :
    ∀ (bs : List α) (ac : AC α), bs.Nodup →
      ((∀ s b, s ≠ r → (closureInner r f ac bs).G (s, b) = ac.G (s, b)) ∧
       (∀ b, b ∉ bs → (closureInner r f ac bs).G (r, b) = ac.G (r, b)) ∧
       (∀ b, b ∈ bs → (closureInner r f ac bs).G (r, b) =
         if ac.G (r, b) = none then ac.G (f, b) else ac.G (r, b)) ∧
       (closureInner r f ac bs).O = ac.O ∧
       (closureInner r f ac bs).F = ac.F ∧
       (closureInner r f ac bs).W = ac.W ∧
       (closureInner r f ac bs).cnt = ac.cnt ∧
       (closureInner r f ac bs).built = ac.built ∧
       (closureInner r f ac bs).deter = ac.deter) := by
  intro bs
  induction bs with
  | nil =>
    intro ac _
    exact ⟨fun s b _ => rfl, fun b _ => rfl, fun b hb => absurd hb (by simp),
      rfl, rfl, rfl, rfl, rfl, rfl⟩
  | cons b₀ bs' ih =>
    intro ac hnd
    rw [closureInner]
    have hnd' : bs'.Nodup := (List.nodup_cons.mp hnd).2
    have hb₀ : b₀ ∉ bs' := (List.nodup_cons.mp hnd).1
    set ac1 : AC α :=
      (if ac.G (r, b₀) = none then
        { ac with G := fun p => if p = (r, b₀) then ac.G (f, b₀) else ac.G p }
      else ac) with hac1
    obtain ⟨ihs, ihnot, ihmem, ihO, ihF, ihW, ihc, ihb, ihd⟩ := ih ac1 hnd'
    have hac1_other : ∀ (p : Nat × α), p ≠ (r, b₀) → ac1.G p = ac.G p := by
      intro p hp
      rw [hac1]
      split
      · show (if p = (r, b₀) then ac.G (f, b₀) else ac.G p) = ac.G p
        rw [if_neg hp]
      · rfl
    have hac1_at : ac1.G (r, b₀) =
        if ac.G (r, b₀) = none then ac.G (f, b₀) else ac.G (r, b₀) := by
      rw [hac1]
      split
      · next hcond =>
        show (if ((r, b₀) : Nat × α) = (r, b₀) then ac.G (f, b₀)
          else ac.G (r, b₀)) = ac.G (f, b₀)
        rw [if_pos rfl]
      · rfl
    have hac1_OFW : ac1.O = ac.O ∧ ac1.F = ac.F ∧ ac1.W = ac.W ∧
        ac1.cnt = ac.cnt ∧ ac1.built = ac.built ∧ ac1.deter = ac.deter := by
      rw [hac1]
      split
      · exact ⟨rfl, rfl, rfl, rfl, rfl, rfl⟩
      · exact ⟨rfl, rfl, rfl, rfl, rfl, rfl⟩
    refine ⟨?_, ?_, ?_, ?_, ?_, ?_, ?_, ?_, ?_⟩
    · intro s b hs
      rw [ihs s b hs, hac1_other (s, b) (by simp [Prod.ext_iff]; intro h; exact absurd h hs)]
    · intro b hb
      have hb1 : b ∉ bs' := fun h => hb (by simp [h])
      have hbb0 : b ≠ b₀ := fun h => hb (by simp [h])
      rw [ihnot b hb1, hac1_other (r, b) (by simp [Prod.ext_iff, hbb0])]
    · intro b hb
      rcases List.mem_cons.mp hb with rfl | hb'
      · rw [ihnot b hb₀, hac1_at]
      · have hbb0 : b ≠ b₀ := fun h => hb₀ (h ▸ hb')
        rw [ihmem b hb', hac1_other (r, b) (by simp [Prod.ext_iff, hbb0]),
          hac1_other (f, b) (by simp [Prod.ext_iff, hbb0])]
    · rw [ihO, hac1_OFW.1]
    · rw [ihF, hac1_OFW.2.1]
    · rw [ihW, hac1_OFW.2.2.1]
    · rw [ihc, hac1_OFW.2.2.2.1]
    · rw [ihb, hac1_OFW.2.2.2.2.1]
    · rw [ihd, hac1_OFW.2.2.2.2.2]

theorem suffix_snoc_cancel {v₁ v₂ : List α} {b : α}
    (h : v₁ ++ [b] <:+ v₂ ++ [b]) : v₁ <:+ v₂ := by
  obtain ⟨p, hp⟩ := h
  rw [← List.append_assoc] at hp
  exact ⟨p, (List.append_inj' hp rfl).1⟩

/-- Walking the failure chain from position `x` (a suffix of `phi u`) in the
deterministic closure: the processed row ends up holding, for every symbol,
the transition to the longest trie-path suffix, and nothing else changes. -/
theorem closureLoop_go {ps : List (List α)} {T : AC α} (hT : TrieStr T ps)
    {u : List α} (hu : InPC ps u) (hune : u ≠ []) :
    ∀ (fuel : Nat) (ac : AC α) (x : List α),
      x <:+ phi ps u → InPC ps x →
      x.length + 1 ≤ fuel →
      ac.W = T.W →
      (∀ y, y <:+ phi ps u → y ≠ [] → InPC ps y →
        ac.F (stt T y) = some (stt T (phi ps y))) →
      (∀ y b, y <:+ phi ps u → InPC ps y → b ∈ T.W (stt T y) →
        ac.G (stt T y, b) = some (stt T (y ++ [b]))) →
      (∀ b, ac.G (stt T u, b) =
        if T.G (stt T u, b) = none then
          (if x.length < (maxSuf ps (phi ps u ++ [b])).length
           then some (stt T (maxSuf ps (phi ps u ++ [b]))) else none)
        else T.G (stt T u, b)) →
      ((∀ b, (closureLoop (stt T u) fuel ac (stt T x)).G (stt T u, b) =
          if T.G (stt T u, b) = none then
            (if maxSuf ps (phi ps u ++ [b]) = [] then none
             else some (stt T (maxSuf ps (phi ps u ++ [b]))))
          else T.G (stt T u, b)) ∧
       (∀ s b, s ≠ stt T u →
          (closureLoop (stt T u) fuel ac (stt T x)).G (s, b) = ac.G (s, b)) ∧
       (closureLoop (stt T u) fuel ac (stt T x)).O = ac.O ∧
       (closureLoop (stt T u) fuel ac (stt T x)).F = ac.F ∧
       (closureLoop (stt T u) fuel ac (stt T x)).W = ac.W ∧
       (closureLoop (stt T u) fuel ac (stt T x)).cnt = ac.cnt ∧
       (closureLoop (stt T u) fuel ac (stt T x)).built = ac.built ∧
       (closureLoop (stt T u) fuel ac (stt T x)).deter = ac.deter) := by
  intro fuel
  induction fuel with
  | zero =>
    intro ac x _ _ hfuel
    omega
  | succ f ih =>
    intro ac x hxsuf hxpc hfuel hW hFc hGsrc hGcur
    by_cases hxe : x = []
    · subst hxe
      rw [show stt T ([] : List α) = 0 from rfl, closureLoop, if_neg (by simp)]
      refine ⟨?_, fun s b _ => rfl, rfl, rfl, rfl, rfl, rfl, rfl⟩
      intro b
      rw [hGcur b]
      by_cases hTG : T.G (stt T u, b) = none
      · rw [if_pos hTG, if_pos hTG]
        by_cases hM : maxSuf ps (phi ps u ++ [b]) = []
        · rw [if_neg (by rw [hM]; simp), if_pos hM]
        · rw [if_pos (by simp [List.length_pos, hM]), if_neg hM]
      · rw [if_neg hTG, if_neg hTG]
    · -- one chain step
      have hsttx : stt T x ≠ 0 := stt_ne_zero hT hxpc hxe
      rw [closureLoop, if_pos hsttx, hFc x hxsuf hxe hxpc, Option.getD_some]
      have hphix_suf : phi ps x <:+ phi ps u := ((phi_suffix hxe).1).trans hxsuf
      have hphix_pc : InPC ps (phi ps x) := phi_InPC ps x
      have hbs_eq : ac.W (stt T (phi ps x)) = T.W (stt T (phi ps x)) := by rw [hW]
      have hbs_nodup : (ac.W (stt T (phi ps x))).Nodup := by
        rw [hbs_eq]; exact hT.W_nodup _
      obtain ⟨cis, cinot, cimem, ciO, ciF, ciW, cic, cib, cid⟩ :=
        closureInner_spec (ac.W (stt T (phi ps x))) ac hbs_nodup
      set ac1 := closureInner (stt T u) (stt T (phi ps x)) ac
        (ac.W (stt T (phi ps x))) with hac1
      have hstt_ne_len : ∀ y : List α, y.length < u.length →
          stt T y ≠ stt T u := by
        intro y hlen h
        cases hr : reach T 0 y with
        | none =>
          have h0 : stt T y = 0 := by rw [stt, hr]; rfl
          exact stt_ne_zero hT hu hune (by rw [← h, h0])
        | some s =>
          have hypc : InPC ps y := (hT.reach_iff y).mp (by rw [hr]; rfl)
          have := congrArg List.length (stt_inj hT hypc hu h)
          omega
      have hlen_phiu_lt : (phi ps u).length < u.length := phi_length hune
      have hchain_ne : ∀ y : List α, y <:+ phi ps u → stt T y ≠ stt T u := by
        intro y hy
        refine hstt_ne_len y ?_
        have := hy.length_le
        omega
      have hFc1 : ∀ y, y <:+ phi ps u → y ≠ [] → InPC ps y →
          ac1.F (stt T y) = some (stt T (phi ps y)) := by
        intro y hy hyne hypc
        rw [ciF]
        exact hFc y hy hyne hypc
      have hGsrc1 : ∀ y b, y <:+ phi ps u → InPC ps y → b ∈ T.W (stt T y) →
          ac1.G (stt T y, b) = some (stt T (y ++ [b])) := by
        intro y b hy hypc hb
        rw [cis (stt T y) b (hchain_ne y hy)]
        exact hGsrc y b hy hypc hb
      have hphix_len : (phi ps x).length < x.length := phi_length hxe
      have hGcur1 : ∀ b, ac1.G (stt T u, b) =
          if T.G (stt T u, b) = none then
            (if (phi ps x).length < (maxSuf ps (phi ps u ++ [b])).length
             then some (stt T (maxSuf ps (phi ps u ++ [b]))) else none)
          else T.G (stt T u, b) := by
        intro b
        have hMpc : InPC ps (maxSuf ps (phi ps u ++ [b])) := maxSuf_InPC ps _
        have hMsufu : maxSuf ps (phi ps u ++ [b]) <:+ phi ps u ++ [b] :=
          maxSuf_suffix ps _
        by_cases hmem : b ∈ ac.W (stt T (phi ps x))
        · have hppc : InPC ps (phi ps x ++ [b]) :=
            (W_stt hT hphix_pc b).mp (by rw [← hbs_eq]; exact hmem)
          have hsub : phi ps x ++ [b] <:+ phi ps u ++ [b] :=
            suffix_append_same [b] hphix_suf
          have hMsuf : phi ps x ++ [b] <:+ maxSuf ps (phi ps u ++ [b]) :=
            maxSuf_max hsub hppc
          have hMlen : (phi ps x).length + 1 ≤
              (maxSuf ps (phi ps u ++ [b])).length := by
            have := hMsuf.length_le
            simp only [List.length_append, List.length_singleton] at this
            omega
          have hplt : (phi ps x).length < (maxSuf ps (phi ps u ++ [b])).length := by
            omega
          rw [cimem b hmem, hGcur b]
          by_cases hTG : T.G (stt T u, b) = none
          · rw [if_pos hTG, if_pos hTG]
            by_cases hxM : x.length < (maxSuf ps (phi ps u ++ [b])).length
            · rw [if_pos hxM, if_neg (by simp), if_pos hplt]
            · rw [if_neg hxM, if_pos rfl,
                hGsrc (phi ps x) b hphix_suf hphix_pc (by rw [← hbs_eq]; exact hmem),
                if_pos hplt]
              -- the provider must be exactly `phi x`
              rcases suffix_snoc_iff.mp hMsufu with hnil | ⟨y', hy', hMy⟩
              · rw [hnil] at hMlen
                simp at hMlen
              · have hy'pc : InPC ps y' :=
                  InPC_pref (List.prefix_append y' [b]) (hMy ▸ hMpc)
                have hy'len : y'.length < x.length := by
                  have h1 : (maxSuf ps (phi ps u ++ [b])).length ≤ x.length :=
                    Nat.le_of_not_lt hxM
                  rw [hMy] at h1
                  simp only [List.length_append, List.length_singleton] at h1
                  omega
                have hy'x : y' <:+ x :=
                  suffix_of_suffix_le hy' hxsuf (by have := hxsuf.length_le; omega)
                have hy'nex : y' ≠ x := by
                  intro h
                  rw [h] at hy'len
                  omega
                have hy'phix : y' <:+ phi ps x := suffix_phi hy'x hy'nex hy'pc
                have hphixy' : phi ps x <:+ y' :=
                  suffix_snoc_cancel (hMy ▸ hMsuf)
                have hy'eq : y' = phi ps x :=
                  List.IsSuffix.eq_of_length_le hy'phix hphixy'.length_le
                rw [hMy, hy'eq]
          · rw [if_neg hTG, if_neg hTG, if_neg hTG]
        · rw [cinot b hmem, hGcur b]
          by_cases hTG : T.G (stt T u, b) = none
          · rw [if_pos hTG, if_pos hTG]
            by_cases hxM : x.length < (maxSuf ps (phi ps u ++ [b])).length
            · rw [if_pos hxM, if_pos (by omega)]
            · rw [if_neg hxM, if_neg ?hnc]
              case hnc =>
                intro hc
                rcases suffix_snoc_iff.mp hMsufu with hnil | ⟨y', hy', hMy⟩
                · rw [hnil] at hc
                  simp at hc
                · have hy'pc : InPC ps y' :=
                    InPC_pref (List.prefix_append y' [b]) (hMy ▸ hMpc)
                  have hy'len : y'.length < x.length := by
                    have h1 : (maxSuf ps (phi ps u ++ [b])).length ≤ x.length :=
                      Nat.le_of_not_lt hxM
                    rw [hMy] at h1
                    simp only [List.length_append, List.length_singleton] at h1
                    omega
                  have hy'x : y' <:+ x :=
                    suffix_of_suffix_le hy' hxsuf (by have := hxsuf.length_le; omega)
                  have hy'nex : y' ≠ x := by
                    intro h
                    rw [h] at hy'len
                    omega
                  have hy'phix : y' <:+ phi ps x := suffix_phi hy'x hy'nex hy'pc
                  have hy'ge : (phi ps x).length ≤ y'.length := by
                    rw [hMy] at hc
                    simp only [List.length_append, List.length_singleton] at hc
                    omega
                  have hy'eq : y' = phi ps x :=
                    List.IsSuffix.eq_of_length_le hy'phix hy'ge
                  apply hmem
                  rw [hbs_eq]
                  refine (W_stt hT hphix_pc b).mpr ?_
                  rw [← hy'eq, ← hMy]
                  exact hMpc
          · rw [if_neg hTG, if_neg hTG]
      have hres := ih ac1 (phi ps x) hphix_suf hphix_pc
        (by omega) (by rw [ciW, hW]) hFc1 hGsrc1 hGcur1
      refine ⟨hres.1, ?_, ?_, ?_, ?_, ?_, ?_, ?_⟩
      · intro s b hs
        rw [hres.2.1 s b hs, cis s b hs]
      · rw [hres.2.2.1, ciO]
      · rw [hres.2.2.2.1, ciF]
      · rw [hres.2.2.2.2.1, ciW]
      · rw [hres.2.2.2.2.2.1, cic]
      · rw [hres.2.2.2.2.2.2.1, cib]
      · rw [hres.2.2.2.2.2.2.2, cid]

theorem setF_G (ac : AC α) (s fs : Nat) : (setF ac s fs).G = ac.G := rfl

theorem setF_O (ac : AC α) (s fs : Nat) : (setF ac s fs).O = ac.O := rfl

theorem setF_W (ac : AC α) (s fs : Nat) : (setF ac s fs).W = ac.W := rfl

theorem setF_cnt (ac : AC α) (s fs : Nat) : (setF ac s fs).cnt = ac.cnt := rfl

theorem setF_built (ac : AC α) (s fs : Nat) : (setF ac s fs).built = ac.built := rfl

theorem setF_deter (ac : AC α) (s fs : Nat) : (setF ac s fs).deter = ac.deter := rfl

theorem setF_F_at (ac : AC α) (s fs : Nat) : (setF ac s fs).F s = some fs := by
  show (if s = s then some fs else ac.F s) = some fs
  rw [if_pos rfl]

theorem setF_F_ne (ac : AC α) (s fs x : Nat) (h : x ≠ s) :
    (setF ac s fs).F x = ac.F x := by
  show (if x = s then some fs else ac.F x) = ac.F x
  rw [if_neg h]

theorem mergeO_G (ac : AC α) (s fs : Nat) : (mergeO ac s fs).G = ac.G := by
  rw [mergeO]; split <;> rfl

theorem mergeO_F (ac : AC α) (s fs : Nat) : (mergeO ac s fs).F = ac.F := by
  rw [mergeO]; split <;> rfl

theorem mergeO_W (ac : AC α) (s fs : Nat) : (mergeO ac s fs).W = ac.W := by
  rw [mergeO]; split <;> rfl

theorem mergeO_cnt (ac : AC α) (s fs : Nat) : (mergeO ac s fs).cnt = ac.cnt := by
  rw [mergeO]; split <;> rfl

theorem mergeO_built (ac : AC α) (s fs : Nat) :
    (mergeO ac s fs).built = ac.built := by
  rw [mergeO]; split <;> rfl

theorem mergeO_deter (ac : AC α) (s fs : Nat) :
    (mergeO ac s fs).deter = ac.deter := by
  rw [mergeO]; split <;> rfl

theorem mergeO_O_ne (ac : AC α) (s fs x : Nat) (h : x ≠ s) :
    (mergeO ac s fs).O x = ac.O x := by
  rw [mergeO]; split
  · rfl
  · show (if x = s then _ else ac.O x) = ac.O x
    rw [if_neg h]

theorem mergeO_O_at (ac : AC α) (s fs : Nat) :
    (mergeO ac s fs).O s =
      if ac.O fs = [] then ac.O s else (ac.O s).union (ac.O fs) := by
  rw [mergeO]; split
  · rfl
  · show (if s = s then (ac.O s).union (ac.O fs) else ac.O s) =
      (ac.O s).union (ac.O fs)
    rw [if_pos rfl]

theorem mem_list_union {l₁ l₂ : List (List α)} {x : List α} :
    x ∈ l₁.union l₂ ↔ x ∈ l₁ ∨ x ∈ l₂ := List.mem_union_iff

/-- Correctness of the child-processing loop of `build` for one popped state
`r = stt T u`: the children are pushed in symbol order, their failure links
are set to the specified failure states, and their output sets become the
full suffix-merged sets; the transition table and everything at other states
is untouched. -/
theorem processChildren_spec {ps : List (List α)} {T : AC α} (hT : TrieStr T ps)
    (hO : OTrie T ps) (hne : ∀ w ∈ ps, w ≠ [])
    {u : List α} (hu : InPC ps u) (hune : u ≠ []) :
    ∀ (as : List α) (ac : AC α),
      ac.cnt = T.cnt →
      (∀ a ∈ as, InPC ps (u ++ [a])) →
      as.Nodup →
      (∀ a ∈ as, ac.O (stt T (u ++ [a])) = T.O (stt T (u ++ [a]))) →
      (∀ b, ac.G (stt T u, b) = T.G (stt T u, b)) →
      (ac.F (stt T u) = some (stt T (phi ps u))) →
      (∀ y, InPC ps y → y ≠ [] → y.length < u.length →
        ac.F (stt T y) = some (stt T (phi ps y))) →
      (∀ y b, InPC ps y → y.length < u.length →
        (∀ t', ac.G (stt T y, b) = some t' →
          maxSuf ps (y ++ [b]) ≠ [] ∧ t' = stt T (maxSuf ps (y ++ [b]))) ∧
        (ac.G (stt T y, b) = none → ¬ InPC ps (y ++ [b]))) →
      (∀ y, InPC ps y → y ≠ [] → y.length ≤ u.length →
        ∀ w, w ∈ ac.O (stt T y) ↔ w ∈ ps ∧ w <:+ y) →
      (ac.O 0 = []) →
      ((processChildren ac (stt T u) as).2 =
          as.map (fun a => stt T (u ++ [a])) ∧
       (processChildren ac (stt T u) as).1.G = ac.G ∧
       (processChildren ac (stt T u) as).1.W = ac.W ∧
       (processChildren ac (stt T u) as).1.cnt = ac.cnt ∧
       (processChildren ac (stt T u) as).1.built = ac.built ∧
       (processChildren ac (stt T u) as).1.deter = ac.deter ∧
       (∀ s, (∀ a ∈ as, stt T (u ++ [a]) ≠ s) →
         (processChildren ac (stt T u) as).1.F s = ac.F s ∧
         (processChildren ac (stt T u) as).1.O s = ac.O s) ∧
       (∀ a ∈ as, (processChildren ac (stt T u) as).1.F (stt T (u ++ [a])) =
         some (stt T (phi ps (u ++ [a])))) ∧
       (∀ a ∈ as, ∀ w,
         w ∈ (processChildren ac (stt T u) as).1.O (stt T (u ++ [a])) ↔
           w ∈ ps ∧ w <:+ (u ++ [a]))) := by
  intro as
  induction as with
  | nil =>
    intro ac _ _ _ _ _ _ _ _ _ _
    exact ⟨rfl, rfl, rfl, rfl, rfl, rfl, fun s _ => ⟨rfl, rfl⟩,
      fun a ha => absurd ha (by simp), fun a ha => absurd ha (by simp)⟩
  | cons a as' ih =>
    intro ac hcnt hch hnd hOpre hGu hFr hFconn hGch hOconn hO0
    have hch_a : InPC ps (u ++ [a]) := hch a (by simp)
    have hchne : (u ++ [a] : List α) ≠ [] := by simp
    -- the child state
    have hs_eq : (ac.G (stt T u, a)).getD 0 = stt T (u ++ [a]) := by
      rw [hGu a, G_stt hT hu a, if_pos hch_a, Option.getD_some]
    -- the fallback target
    have hphiu_pc : InPC ps (phi ps u) := phi_InPC ps u
    have hphiu_len : (phi ps u).length < u.length := phi_length hune
    have hfall : (ac.G (fallbackB ac.F ac.G a ac.cnt (stt T (phi ps u)), a)).getD 0 =
        stt T (phi ps (u ++ [a])) := by
      rw [phi_snoc hune a]
      refine fallback_correct hT ac.cnt (phi ps u) hphiu_pc ?_ ?_ ?_
      · intro y hy hyne hypc
        refine hFconn y hypc hyne ?_
        have := hy.length_le
        omega
      · intro y hy hypc
        refine hGch y a hypc ?_
        have := hy.length_le
        omega
      · rw [hcnt]
        have := len_lt_cnt hT hu
        omega
    -- basic distinctness facts
    have hchild_ne_zero : stt T (u ++ [a]) ≠ 0 := stt_ne_zero hT hch_a hchne
    have hchild_ne : ∀ y : List α, InPC ps y → y.length ≤ u.length →
        stt T y ≠ stt T (u ++ [a]) := by
      intro y hy hylen h
      have := congrArg List.length (stt_inj hT hy hch_a h)
      simp only [List.length_append, List.length_singleton] at this
      omega
    -- the output set of the fallback state is the suffix set of phi (u ++ [a])
    have hpz_pc : InPC ps (phi ps (u ++ [a])) := phi_InPC ps _
    have hpz_len : (phi ps (u ++ [a])).length ≤ u.length := by
      have := @phi_length α _ ps _ hchne
      simp only [List.length_append, List.length_singleton] at this
      omega
    have hOfs : ∀ w, w ∈ ac.O (stt T (phi ps (u ++ [a]))) ↔
        w ∈ ps ∧ w <:+ phi ps (u ++ [a]) := by
      by_cases hpz : phi ps (u ++ [a]) = []
      · rw [hpz]
        intro w
        rw [show stt T ([] : List α) = 0 from rfl, hO0]
        simp only [List.not_mem_nil, false_iff, not_and]
        intro hwps hsuf
        exact hne w hwps (List.suffix_nil.mp hsuf)
      · exact hOconn _ hpz_pc hpz hpz_len
    -- the child's output set before any merge is its trie output
    have hOchild_trie : ∀ w, w ∈ ac.O (stt T (u ++ [a])) ↔
        w ∈ ps ∧ w = u ++ [a] := by
      intro w
      rw [hOpre a (by simp)]
      constructor
      · intro hw
        obtain ⟨hwps, hr⟩ := (hO _ w).mp hw
        refine ⟨hwps, ?_⟩
        refine stt_inj hT (InPC_of_mem hwps) hch_a ?_
        have := stt_some hT (InPC_of_mem hwps)
        rw [this] at hr
        injection hr
      · rintro ⟨hwps, rfl⟩
        exact (hO _ _).mpr ⟨hwps, stt_some hT hch_a⟩
    -- the decomposition of suffixes of the child path
    have hsuffix_split : ∀ w, w ∈ ps →
        (w <:+ u ++ [a] ↔ w = u ++ [a] ∨ w <:+ phi ps (u ++ [a])) := by
      intro w hwps
      constructor
      · intro hsuf
        by_cases heq : w = u ++ [a]
        · exact Or.inl heq
        · exact Or.inr (suffix_phi hsuf heq (InPC_of_mem hwps))
      · rintro (rfl | hsuf)
        · exact List.suffix_rfl
        · exact hsuf.trans (phi_suffix hchne).1
    -- the merged output of the child
    have hOchild : ∀ w,
        (w ∈ (if ac.O (stt T (phi ps (u ++ [a]))) = []
          then ac.O (stt T (u ++ [a]))
          else (ac.O (stt T (u ++ [a]))).union
            (ac.O (stt T (phi ps (u ++ [a])))))) ↔
          w ∈ ps ∧ w <:+ u ++ [a] := by
      intro w
      by_cases hguard : ac.O (stt T (phi ps (u ++ [a]))) = []
      · rw [if_pos hguard, hOchild_trie w]
        constructor
        · rintro ⟨hwps, rfl⟩
          exact ⟨hwps, List.suffix_rfl⟩
        · rintro ⟨hwps, hsuf⟩
          refine ⟨hwps, ?_⟩
          rcases (hsuffix_split w hwps).mp hsuf with h | h
          · exact h
          · exfalso
            have hmem := (hOfs w).mpr ⟨hwps, h⟩
            rw [hguard] at hmem
            exact List.not_mem_nil w hmem
      · rw [if_neg hguard, mem_list_union, hOchild_trie w]
        constructor
        · rintro (⟨hwps, rfl⟩ | hmem)
          · exact ⟨hwps, List.suffix_rfl⟩
          · obtain ⟨hwps, hsuf⟩ := (hOfs w).mp hmem
            exact ⟨hwps, (hsuffix_split w hwps).mpr (Or.inr hsuf)⟩
        · rintro ⟨hwps, hsuf⟩
          rcases (hsuffix_split w hwps).mp hsuf with h | h
          · exact Or.inl ⟨hwps, h⟩
          · exact Or.inr ((hOfs w).mpr ⟨hwps, h⟩)
    -- distinctness of sibling children
    have hchild_states_ne : ∀ a' ∈ as',
        stt T (u ++ [a']) ≠ stt T (u ++ [a]) := by
      intro a' ha' h
      have heq := stt_inj hT (hch a' (by simp [ha'])) hch_a h
      have h2 := (List.append_inj' heq rfl).2
      injection h2 with h2
      exact (List.nodup_cons.mp hnd).1 (h2 ▸ ha')
    -- unfold one step
    simp only [processChildren]
    rw [hFr, Option.getD_some, hfall, hs_eq]
    set ac2 := mergeO
      (setF ac (stt T (u ++ [a])) (stt T (phi ps (u ++ [a]))))
      (stt T (u ++ [a])) (stt T (phi ps (u ++ [a]))) with hac2
    have hac2G : ac2.G = ac.G := by rw [hac2, mergeO_G, setF_G]
    have hac2W : ac2.W = ac.W := by rw [hac2, mergeO_W, setF_W]
    have hac2cnt : ac2.cnt = ac.cnt := by rw [hac2, mergeO_cnt, setF_cnt]
    have hac2b : ac2.built = ac.built := by rw [hac2, mergeO_built, setF_built]
    have hac2d : ac2.deter = ac.deter := by rw [hac2, mergeO_deter, setF_deter]
    have hac2F : ∀ x, x ≠ stt T (u ++ [a]) → ac2.F x = ac.F x := by
      intro x hx
      rw [hac2, mergeO_F, setF_F_ne _ _ _ _ hx]
    have hac2F_at : ac2.F (stt T (u ++ [a])) =
        some (stt T (phi ps (u ++ [a]))) := by
      rw [hac2, mergeO_F, setF_F_at]
    have hac2O : ∀ x, x ≠ stt T (u ++ [a]) → ac2.O x = ac.O x := by
      intro x hx
      rw [hac2, mergeO_O_ne _ _ _ _ hx, setF_O]
    have hac2O_at : ac2.O (stt T (u ++ [a])) =
        if ac.O (stt T (phi ps (u ++ [a]))) = []
        then ac.O (stt T (u ++ [a]))
        else (ac.O (stt T (u ++ [a]))).union
          (ac.O (stt T (phi ps (u ++ [a])))) := by
      rw [hac2, mergeO_O_at, setF_O]
    obtain ⟨i1, i2, i3, i4, i5, i6, i7, i8, i9⟩ := ih ac2
      (by rw [hac2cnt, hcnt])
      (fun a' ha' => hch a' (by simp [ha']))
      (List.nodup_cons.mp hnd).2
      (fun a' ha' => by
        rw [hac2O _ (hchild_states_ne a' ha')]
        exact hOpre a' (by simp [ha']))
      (fun b => by rw [hac2G]; exact hGu b)
      (by
        rw [hac2F _ (hchild_ne u hu (Nat.le_refl _))]
        exact hFr)
      (fun y hy hyne hylen => by
        rw [hac2F _ (hchild_ne y hy (by omega))]
        exact hFconn y hy hyne hylen)
      (fun y b hy hylen => by rw [hac2G]; exact hGch y b hy hylen)
      (fun y hy hyne hylen w => by
        rw [hac2O _ (hchild_ne y hy hylen)]
        exact hOconn y hy hyne hylen w)
      (by
        rw [hac2O 0 (Ne.symm hchild_ne_zero)]
        exact hO0)
    refine ⟨?_, ?_, ?_, ?_, ?_, ?_, ?_, ?_, ?_⟩
    · rw [List.map_cons, i1]
    · rw [i2, hac2G]
    · rw [i3, hac2W]
    · rw [i4, hac2cnt]
    · rw [i5, hac2b]
    · rw [i6, hac2d]
    · intro s hs
      have hs' : ∀ a' ∈ as', stt T (u ++ [a']) ≠ s :=
        fun a' ha' => hs a' (by simp [ha'])
      have hsa : s ≠ stt T (u ++ [a]) := Ne.symm (hs a (by simp))
      exact ⟨((i7 s hs').1).trans (hac2F s hsa),
        ((i7 s hs').2).trans (hac2O s hsa)⟩
    · intro a' ha'
      rcases List.mem_cons.mp ha' with rfl | ha'
      · rw [(i7 (stt T (u ++ [a'])) (hchild_states_ne)).1, hac2F_at]
      · exact i8 a' ha'
    · intro a' ha' w
      rcases List.mem_cons.mp ha' with rfl | ha'
      · rw [(i7 (stt T (u ++ [a'])) (hchild_states_ne)).2, hac2O_at]
        exact hOchild w
      · exact i9 a' ha' w

/-- Correctness of the queue-seeding loop: the root's children are pushed in
symbol order with failure link `0`, and nothing else changes. -/
theorem seed_spec {ps : List (List α)} {T : AC α} (hT : TrieStr T ps) :
    ∀ (as : List α) (ac : AC α),
      ac.G = T.G →
      (∀ a ∈ as, InPC ps [a]) →
      as.Nodup →
      ((seed ac as).1.G = ac.G ∧ (seed ac as).1.O = ac.O ∧
       (seed ac as).1.W = ac.W ∧ (seed ac as).1.cnt = ac.cnt ∧
       (seed ac as).1.built = ac.built ∧ (seed ac as).1.deter = ac.deter ∧
       (seed ac as).2 = as.map (fun a => stt T [a]) ∧
       (∀ s, (∀ a ∈ as, stt T [a] ≠ s) → (seed ac as).1.F s = ac.F s) ∧
       (∀ a ∈ as, (seed ac as).1.F (stt T [a]) = some 0)) := by
  intro as
  induction as with
  | nil =>
    intro ac _ _ _
    exact ⟨rfl, rfl, rfl, rfl, rfl, rfl, rfl, fun s _ => rfl,
      fun a ha => absurd ha (by simp)⟩
  | cons a as' ih =>
    intro ac hG hch hnd
    have hch_a : InPC ps [a] := hch a (by simp)
    have hs_eq : (ac.G (0, a)).getD 0 = stt T [a] := by
      rw [hG]
      have hroot := G_stt hT (InPC_nil ps) a
      rw [List.nil_append] at hroot
      rw [show (0 : Nat) = stt T ([] : List α) from rfl, hroot,
        if_pos hch_a, Option.getD_some]
    have hstates_ne : ∀ a' ∈ as', stt T [a'] ≠ stt T [a] := by
      intro a' ha' h
      have heq := stt_inj hT (hch a' (by simp [ha'])) hch_a h
      injection heq with h1
      exact (List.nodup_cons.mp hnd).1 (h1 ▸ ha')
    simp only [seed]
    rw [hs_eq]
    set ac1 := setF ac (stt T [a]) 0 with hac1
    obtain ⟨i1, i2, i3, i4, i5, i6, i7, i8, i9⟩ := ih ac1
      (by rw [hac1, setF_G]; exact hG)
      (fun b hb => hch b (by simp [hb]))
      (List.nodup_cons.mp hnd).2
    refine ⟨?_, ?_, ?_, ?_, ?_, ?_, ?_, ?_, ?_⟩
    · rw [i1, hac1, setF_G]
    · rw [i2, hac1, setF_O]
    · rw [i3, hac1, setF_W]
    · rw [i4, hac1, setF_cnt]
    · rw [i5, hac1, setF_built]
    · rw [i6, hac1, setF_deter]
    · rw [List.map_cons, i7]
    · intro s hs
      rw [i8 s (fun a' ha' => hs a' (by simp [ha'])), hac1,
        setF_F_ne _ _ _ _ (Ne.symm (hs a (by simp)))]
    · intro a' ha'
      rcases List.mem_cons.mp ha' with rfl | ha'
      · rw [i8 (stt T [a']) hstates_ne, hac1, setF_F_at]
      · exact i9 a' ha'

/-- The breadth-first invariant of the build loop.  `ds` are the paths of the
already-processed states, `qs` those of the states currently in the queue, in
order. -/
structure BFSInv (ps : List (List α)) (T : AC α) (deter : Bool) (ac : AC α)
    (ds qs : List (List α)) : Prop where
  W_eq : ac.W = T.W
  cnt_eq : ac.cnt = T.cnt
  built_eq : ac.built = false
  disc_mem : ∀ v ∈ ds ++ qs, InPC ps v ∧ v ≠ []
  disc_nodup : (ds ++ qs).Nodup
  disc_iff : ∀ v, InPC ps v → v ≠ [] →
    (v ∈ ds ++ qs ↔ v.length = 1 ∨ v.dropLast ∈ ds)
  sorted : (ds ++ qs).Pairwise (fun x y => x.length ≤ y.length)
  F_disc : ∀ v ∈ ds ++ qs, ac.F (stt T v) = some (stt T (phi ps v))
  F_undisc : ∀ s : Nat, (∀ v ∈ ds ++ qs, stt T v ≠ s) → ac.F s = none
  O_disc : ∀ v ∈ ds ++ qs, ∀ w, w ∈ ac.O (stt T v) ↔ w ∈ ps ∧ w <:+ v
  O_undisc : ∀ s : Nat, (∀ v ∈ ds ++ qs, stt T v ≠ s) → ac.O s = T.O s
  G_done : ∀ v ∈ ds, ∀ b : α,
    ac.G (stt T v, b) =
      if deter then
        (if maxSuf ps (v ++ [b]) = [] then none
         else some (stt T (maxSuf ps (v ++ [b]))))
      else T.G (stt T v, b)
  G_rest : ∀ s : Nat, (∀ v ∈ ds, stt T v ≠ s) → ∀ b, ac.G (s, b) = T.G (s, b)

/-- Every trie path strictly shorter than everything in the queue has been
processed. -/
theorem BFSInv.shallow {ps : List (List α)} {T : AC α} {deter : Bool}
    {ac : AC α} {ds qs : List (List α)}
    (inv : BFSInv ps T deter ac ds qs) :
    ∀ (n : Nat) (y : List α), y.length ≤ n → InPC ps y → y ≠ [] →
      (∀ v ∈ qs, y.length < v.length) → y ∈ ds := by
  intro n
  induction n with
  | zero =>
    intro y hlen _ hyne _
    cases y with
    | nil => exact absurd rfl hyne
    | cons c cs => simp at hlen
  | succ n ih =>
    intro y hlen hy hyne hq
    have hdisc : y ∈ ds ++ qs := by
      rw [inv.disc_iff y hy hyne]
      by_cases h1 : y.length = 1
      · exact Or.inl h1
      · have hylen : 2 ≤ y.length := by
          cases hl : y.length with
          | zero => exact absurd (List.eq_nil_of_length_eq_zero hl) hyne
          | succ m => omega
        refine Or.inr (ih y.dropLast ?_ ?_ ?_ ?_)
        · rw [List.length_dropLast]
          omega
        · exact InPC_pref (List.dropLast_prefix y) hy
        · intro h
          have := congrArg List.length h
          rw [List.length_dropLast] at this
          simp at this
          omega
        · intro v hv
          have := hq v hv
          rw [List.length_dropLast]
          omega
    rcases List.mem_append.mp hdisc with h | h
    · exact h
    · exact absurd (hq y h) (Nat.lt_irrefl _)

/-- The discovered states are distinct non-root states, so there are at most
`cnt - 1` of them. -/
theorem BFSInv.card {ps : List (List α)} {T : AC α} {deter : Bool}
    {ac : AC α} {ds qs : List (List α)} (hT : TrieStr T ps)
    (inv : BFSInv ps T deter ac ds qs) :
    ds.length + qs.length ≤ T.cnt - 1 := by
  have hmapped : ((ds ++ qs).map (stt T)).Nodup := by
    refine List.Nodup.map_on ?_ inv.disc_nodup
    intro x hx y hy hxy
    exact stt_inj hT (inv.disc_mem x hx).1 (inv.disc_mem y hy).1 hxy
  have hsub : ((ds ++ qs).map (stt T)).toFinset ⊆ Finset.Ico 1 T.cnt := by
    intro s hs
    rw [List.mem_toFinset] at hs
    obtain ⟨v, hv, rfl⟩ := List.mem_map.mp hs
    rw [Finset.mem_Ico]
    constructor
    · have := stt_ne_zero hT (inv.disc_mem v hv).1 (inv.disc_mem v hv).2
      omega
    · exact stt_lt hT (inv.disc_mem v hv).1
  have hcard := Finset.card_le_card hsub
  rw [List.toFinset_card_of_nodup hmapped, Nat.card_Ico] at hcard
  rw [List.length_map, List.length_append] at hcard
  omega

/-- Re-establishing the breadth-first invariant after one popped state `u`:
`acN` is the automaton after processing `u`'s children (and, in deterministic
mode, after closing `u`'s row), described by the pointwise hypotheses. -/
theorem BFSInv_step {ps : List (List α)} {T : AC α} {deter : Bool}
    {ac acN : AC α} {ds qs' : List (List α)} {u : List α}
    (hT : TrieStr T ps) (hne : ∀ w ∈ ps, w ≠ [])
    (inv : BFSInv ps T deter ac ds (u :: qs'))
    (hNW : acN.W = ac.W) (hNc : acN.cnt = ac.cnt) (hNb : acN.built = ac.built)
    (hNF_old : ∀ s, (∀ a ∈ T.W (stt T u), stt T (u ++ [a]) ≠ s) →
      acN.F s = ac.F s)
    (hNF_ch : ∀ a ∈ T.W (stt T u),
      acN.F (stt T (u ++ [a])) = some (stt T (phi ps (u ++ [a]))))
    (hNO_old : ∀ s, (∀ a ∈ T.W (stt T u), stt T (u ++ [a]) ≠ s) →
      acN.O s = ac.O s)
    (hNO_ch : ∀ a ∈ T.W (stt T u), ∀ w,
      w ∈ acN.O (stt T (u ++ [a])) ↔ w ∈ ps ∧ w <:+ u ++ [a])
    (hNG_done : ∀ v ∈ ds ++ [u], ∀ b, acN.G (stt T v, b) =
      if deter then
        (if maxSuf ps (v ++ [b]) = [] then none
         else some (stt T (maxSuf ps (v ++ [b]))))
      else T.G (stt T v, b))
    (hNG_rest : ∀ s, (∀ v ∈ ds ++ [u], stt T v ≠ s) → ∀ b,
      acN.G (s, b) = T.G (s, b)) :
    BFSInv ps T deter acN (ds ++ [u])
      (qs' ++ (T.W (stt T u)).map (fun a => u ++ [a])) := by
  obtain ⟨hu, hune⟩ := inv.disc_mem u (by simp)
  have hu_notds : u ∉ ds := by
    intro h
    have hnd := inv.disc_nodup
    rw [List.nodup_append] at hnd
    exact hnd.2.2 h (by simp)
  obtain ⟨pds, pq, cross⟩ := List.pairwise_append.mp inv.sorted
  have hqslen : ∀ v ∈ u :: qs', u.length ≤ v.length := by
    intro v hv
    rcases List.mem_cons.mp hv with rfl | hv
    · exact Nat.le_refl _
    · exact (List.pairwise_cons.mp pq).1 v hv
  have hdslen : ∀ v ∈ ds, v.length ≤ u.length := fun v hv => cross v hv u (by simp)
  -- facts about the children
  have hch_pc : ∀ a ∈ T.W (stt T u), InPC ps (u ++ [a]) :=
    fun a ha => (W_stt hT hu a).mp ha
  have hch_len : ∀ v ∈ (T.W (stt T u)).map (fun a => u ++ [a]),
      v.length = u.length + 1 := by
    intro v hv
    obtain ⟨a, _, rfl⟩ := List.mem_map.mp hv
    simp
  have hch_mem : ∀ v ∈ (T.W (stt T u)).map (fun a => u ++ [a]),
      InPC ps v ∧ v ≠ [] := by
    intro v hv
    obtain ⟨a, ha, rfl⟩ := List.mem_map.mp hv
    exact ⟨hch_pc a ha, by simp⟩
  have hch_not_disc : ∀ v ∈ (T.W (stt T u)).map (fun a => u ++ [a]),
      v ∉ ds ++ u :: qs' := by
    intro v hv hmem
    obtain ⟨a, ha, rfl⟩ := List.mem_map.mp hv
    rw [inv.disc_iff _ (hch_pc a ha) (by simp)] at hmem
    rcases hmem with h1 | h1
    · rw [List.length_append, List.length_singleton] at h1
      have : u.length = 0 := by omega
      exact hune (List.eq_nil_of_length_eq_zero this)
    · rw [List.dropLast_concat] at h1
      exact hu_notds h1
  have hch_nodup : ((T.W (stt T u)).map (fun a => u ++ [a])).Nodup := by
    refine List.Nodup.map_on ?_ (hT.W_nodup _)
    intro x _ y _ hxy
    have := (List.append_inj' hxy rfl).2
    injection this
  have hch_states : ∀ v ∈ ds ++ u :: qs', ∀ a ∈ T.W (stt T u),
      stt T (u ++ [a]) ≠ stt T v := by
    intro v hv a ha h
    have := stt_inj hT (hch_pc a ha) (inv.disc_mem v hv).1 h
    exact hch_not_disc _ (List.mem_map.mpr ⟨a, ha, rfl⟩) (this ▸ hv)
  have hlist : (ds ++ [u]) ++ (qs' ++ (T.W (stt T u)).map (fun a => u ++ [a])) =
      (ds ++ u :: qs') ++ (T.W (stt T u)).map (fun a => u ++ [a]) := by
    simp
  constructor
  · rw [hNW]; exact inv.W_eq
  · rw [hNc]; exact inv.cnt_eq
  · rw [hNb]; exact inv.built_eq
  · -- disc_mem
    rw [hlist]
    intro v hv
    rcases List.mem_append.mp hv with hv | hv
    · exact inv.disc_mem v hv
    · exact hch_mem v hv
  · -- disc_nodup
    rw [hlist, List.nodup_append]
    exact ⟨inv.disc_nodup, hch_nodup, fun v hv hv2 => hch_not_disc v hv2 hv⟩
  · -- disc_iff
    intro v hv hvne
    rw [hlist]
    constructor
    · intro hmem
      rcases List.mem_append.mp hmem with hmem | hmem
      · rcases (inv.disc_iff v hv hvne).mp hmem with h1 | h1
        · exact Or.inl h1
        · exact Or.inr (List.mem_append_left _ h1)
      · obtain ⟨a, _, rfl⟩ := List.mem_map.mp hmem
        rw [List.dropLast_concat]
        exact Or.inr (List.mem_append_right _ (by simp))
    · intro hmem
      rcases hmem with h1 | h1
      · exact List.mem_append_left _
          ((inv.disc_iff v hv hvne).mpr (Or.inl h1))
      · rcases List.mem_append.mp h1 with h1 | h1
        · exact List.mem_append_left _
            ((inv.disc_iff v hv hvne).mpr (Or.inr h1))
        · rw [List.mem_singleton] at h1
          refine List.mem_append_right _ ?_
          have hvs : v = v.dropLast ++ [v.getLast hvne] :=
            (List.dropLast_append_getLast hvne).symm
          have hlast : v.dropLast ++ [v.getLast hvne] ∈
              (T.W (stt T u)).map (fun a => u ++ [a]) := by
            refine List.mem_map.mpr ⟨v.getLast hvne, ?_, by rw [h1]⟩
            refine (W_stt hT hu _).mpr ?_
            rw [← h1, ← hvs]
            exact hv
          rw [hvs]
          exact hlast
  · -- sorted
    rw [hlist, List.pairwise_append]
    refine ⟨inv.sorted, ?_, ?_⟩
    · refine List.pairwise_of_forall_mem_list ?_
      intro x hx y hy
      rw [hch_len x hx, hch_len y hy]
    · intro x hx y hy
      rw [hch_len y hy]
      rcases List.mem_append.mp hx with hx | hx
      · have := hdslen x hx
        omega
      · rcases List.mem_cons.mp hx with rfl | hx
        · omega
        · have hxd := inv.disc_mem x (by simp [hx])
          rcases (inv.disc_iff x hxd.1 hxd.2).mp (by simp [hx]) with h1 | h1
          · omega
          · have h2 := hdslen _ h1
            rw [List.length_dropLast] at h2
            omega
  · -- F_disc
    rw [hlist]
    intro v hv
    rcases List.mem_append.mp hv with hv | hv
    · rw [hNF_old _ (fun a ha => hch_states v hv a ha)]
      exact inv.F_disc v hv
    · obtain ⟨a, ha, rfl⟩ := List.mem_map.mp hv
      exact hNF_ch a ha
  · -- F_undisc
    rw [hlist]
    intro s hs
    rw [hNF_old s (fun a ha =>
      hs _ (List.mem_append_right _ (List.mem_map.mpr ⟨a, ha, rfl⟩)))]
    exact inv.F_undisc s (fun v hv => hs v (List.mem_append_left _ hv))
  · -- O_disc
    rw [hlist]
    intro v hv
    rcases List.mem_append.mp hv with hv | hv
    · intro w
      rw [hNO_old _ (fun a ha => hch_states v hv a ha)]
      exact inv.O_disc v hv w
    · obtain ⟨a, ha, rfl⟩ := List.mem_map.mp hv
      exact hNO_ch a ha
  · -- O_undisc
    rw [hlist]
    intro s hs
    rw [hNO_old s (fun a ha =>
      hs _ (List.mem_append_right _ (List.mem_map.mpr ⟨a, ha, rfl⟩)))]
    exact inv.O_undisc s (fun v hv => hs v (List.mem_append_left _ hv))
  · -- G_done
    exact hNG_done
  · -- G_rest
    exact hNG_rest

/-- The two-sided characterisation used by the fallback loop, for a row that
agrees with the trie. -/
theorem G_char_of_trie {ps : List (List α)} {T : AC α} (hT : TrieStr T ps)
    {ac : AC α} {y : List α} {b : α}
    (heq : ac.G (stt T y, b) = T.G (stt T y, b)) (hy : InPC ps y) :
    (∀ t', ac.G (stt T y, b) = some t' →
      maxSuf ps (y ++ [b]) ≠ [] ∧ t' = stt T (maxSuf ps (y ++ [b]))) ∧
    (ac.G (stt T y, b) = none → ¬ InPC ps (y ++ [b])) := by
  rw [heq, G_stt hT hy b]
  by_cases hpc : InPC ps (y ++ [b])
  · rw [if_pos hpc]
    refine ⟨fun t' ht' => ?_, fun h => absurd h (by simp)⟩
    injection ht' with ht'
    rw [maxSuf_eq_self hpc]
    exact ⟨by simp, ht'.symm⟩
  · rw [if_neg hpc]
    exact ⟨fun t' ht' => absurd ht' (by simp), fun _ => hpc⟩

/-- The same characterisation for a deterministically closed row. -/
theorem G_char_of_closed {ps : List (List α)} {T : AC α} {ac : AC α}
    {y : List α} {b : α}
    (heq : ac.G (stt T y, b) =
      if maxSuf ps (y ++ [b]) = [] then none
      else some (stt T (maxSuf ps (y ++ [b])))) :
    (∀ t', ac.G (stt T y, b) = some t' →
      maxSuf ps (y ++ [b]) ≠ [] ∧ t' = stt T (maxSuf ps (y ++ [b]))) ∧
    (ac.G (stt T y, b) = none → ¬ InPC ps (y ++ [b])) := by
  rw [heq]
  by_cases hM : maxSuf ps (y ++ [b]) = []
  · rw [if_pos hM]
    refine ⟨fun t' ht' => absurd ht' (by simp), fun _ hpc => ?_⟩
    rw [maxSuf_eq_self hpc] at hM
    exact (by simp : (y ++ [b] : List α) ≠ []) hM
  · rw [if_neg hM]
    refine ⟨fun t' ht' => ⟨hM, ?_⟩, fun h => absurd h (by simp)⟩
    injection ht' with ht'
    rw [ht']

/-- One full pass of the build loop empties the queue while maintaining the
invariant. -/
theorem buildLoop_spec {ps : List (List α)} {T : AC α} (hT : TrieStr T ps)
    (hO : OTrie T ps) (hne : ∀ w ∈ ps, w ≠ []) (deter : Bool) :
    ∀ (fuel : Nat) (ac : AC α) (ds qs : List (List α)),
      BFSInv ps T deter ac ds qs →
      T.cnt - 1 - ds.length ≤ fuel →
      ∃ ds', BFSInv ps T deter (buildLoop deter fuel ac (qs.map (stt T))) ds' [] := by
  intro fuel
  induction fuel with
  | zero =>
    intro ac ds qs inv hfuel
    cases qs with
    | nil => exact ⟨ds, inv⟩
    | cons u qs' =>
      exfalso
      have hcard := inv.card hT
      simp only [List.length_cons] at hcard
      omega
  | succ f ih =>
    intro ac ds qs inv hfuel
    cases qs with
    | nil => exact ⟨ds, inv⟩
    | cons u qs' =>
      obtain ⟨hu, hune⟩ := inv.disc_mem u (by simp)
      have hu_notds : u ∉ ds := by
        intro h
        have hnd := inv.disc_nodup
        rw [List.nodup_append] at hnd
        exact hnd.2.2 h (by simp)
      have hsttu_ne : ∀ v ∈ ds, stt T v ≠ stt T u := by
        intro v hv h
        exact hu_notds ((stt_inj hT (inv.disc_mem v (by simp [hv])).1 hu h) ▸ hv)
      obtain ⟨pds, pq, cross⟩ := List.pairwise_append.mp inv.sorted
      have hqslen : ∀ v ∈ u :: qs', u.length ≤ v.length := by
        intro v hv
        rcases List.mem_cons.mp hv with rfl | hv
        · exact Nat.le_refl _
        · exact (List.pairwise_cons.mp pq).1 v hv
      have hshallow : ∀ y, InPC ps y → y ≠ [] → y.length < u.length → y ∈ ds := by
        intro y hy hyne hlen
        exact inv.shallow y.length y (Nat.le_refl _) hy hyne
          (fun v hv => Nat.lt_of_lt_of_le hlen (hqslen v hv))
      have hdiscLE : ∀ y, InPC ps y → y ≠ [] → y.length ≤ u.length →
          y ∈ ds ++ u :: qs' := by
        intro y hy hyne hlen
        rw [inv.disc_iff y hy hyne]
        by_cases h1 : y.length = 1
        · exact Or.inl h1
        · have h2 : 2 ≤ y.length := by
            cases hl : y.length with
            | zero => exact absurd (List.eq_nil_of_length_eq_zero hl) hyne
            | succ n => omega
          refine Or.inr (hshallow y.dropLast ?_ ?_ ?_)
          · exact InPC_pref (List.dropLast_prefix y) hy
          · intro h
            have := congrArg List.length h
            rw [List.length_dropLast] at this
            simp at this
            omega
          · rw [List.length_dropLast]
            omega
      have hch_pc : ∀ a ∈ T.W (stt T u), InPC ps (u ++ [a]) :=
        fun a ha => (W_stt hT hu a).mp ha
      have hch_not_disc : ∀ a ∈ T.W (stt T u), (u ++ [a]) ∉ ds ++ u :: qs' := by
        intro a ha hmem
        rw [inv.disc_iff _ (hch_pc a ha) (by simp)] at hmem
        rcases hmem with h1 | h1
        · rw [List.length_append, List.length_singleton] at h1
          have : u.length = 0 := by omega
          exact hune (List.eq_nil_of_length_eq_zero this)
        · rw [List.dropLast_concat] at h1
          exact hu_notds h1
      have hch_states_ne : ∀ a ∈ T.W (stt T u), ∀ v ∈ ds ++ u :: qs',
          stt T (u ++ [a]) ≠ stt T v := by
        intro a ha v hv h
        exact hch_not_disc a ha
          ((stt_inj hT (hch_pc a ha) (inv.disc_mem v hv).1 h) ▸ hv)
      have hch_ne_u : ∀ a ∈ T.W (stt T u), stt T (u ++ [a]) ≠ stt T u :=
        fun a ha => hch_states_ne a ha u (by simp)
      have hzero_ne : ∀ v ∈ ds ++ u :: qs', stt T v ≠ 0 :=
        fun v hv => stt_ne_zero hT (inv.disc_mem v hv).1 (inv.disc_mem v hv).2
      -- hypotheses for the child-processing loop
      have hOpre : ∀ a ∈ T.W (stt T u),
          ac.O (stt T (u ++ [a])) = T.O (stt T (u ++ [a]))  :=
        fun a ha => inv.O_undisc _ (fun v hv => Ne.symm (hch_states_ne a ha v hv))
      have hGu : ∀ b, ac.G (stt T u, b) = T.G (stt T u, b) :=
        fun b => inv.G_rest _ hsttu_ne b
      have hFr : ac.F (stt T u) = some (stt T (phi ps u)) :=
        inv.F_disc u (by simp)
      have hFconn : ∀ y, InPC ps y → y ≠ [] → y.length < u.length →
          ac.F (stt T y) = some (stt T (phi ps y)) :=
        fun y hy hyne hylen =>
          inv.F_disc y (List.mem_append_left _ (hshallow y hy hyne hylen))
      have hGch : ∀ y b, InPC ps y → y.length < u.length →
          ((∀ t', ac.G (stt T y, b) = some t' →
            maxSuf ps (y ++ [b]) ≠ [] ∧ t' = stt T (maxSuf ps (y ++ [b]))) ∧
           (ac.G (stt T y, b) = none → ¬ InPC ps (y ++ [b]))) := by
        intro y b hy hylen
        by_cases hyne : y = []
        · subst hyne
          refine G_char_of_trie hT ?_ hy
          exact inv.G_rest _ (fun v hv h => hzero_ne v (by simp [hv]) h) b
        · have hyds : y ∈ ds := hshallow y hy hyne hylen
          have hdone := inv.G_done y hyds b
          cases deter with
          | false => exact G_char_of_trie hT hdone hy
          | true => exact G_char_of_closed hdone
      have hOconn : ∀ y, InPC ps y → y ≠ [] → y.length ≤ u.length →
          ∀ w, w ∈ ac.O (stt T y) ↔ w ∈ ps ∧ w <:+ y :=
        fun y hy hyne hylen w => inv.O_disc y (hdiscLE y hy hyne hylen) w
      have hO0 : ac.O 0 = [] :=
        (inv.O_undisc 0 (fun v hv => hzero_ne v hv)).trans (T_O0 hT hO hne)
      obtain ⟨p1, p2, p3, p4, p5, p6, p7, p8, p9⟩ :=
        processChildren_spec hT hO hne hu hune (T.W (stt T u)) ac
          inv.cnt_eq hch_pc (hT.W_nodup _) hOpre hGu hFr hFconn hGch hOconn hO0
      -- unfold one iteration of the loop
      rw [List.map_cons]
      simp only [buildLoop]
      rw [inv.W_eq]
      have hfuel2 : T.cnt - 1 - (ds ++ [u]).length ≤ f := by
        rw [List.length_append, List.length_singleton]
        omega
      have hqmap : (qs'.map (stt T)) ++ (processChildren ac (stt T u) (T.W (stt T u))).2 =
          (qs' ++ (T.W (stt T u)).map (fun a => u ++ [a])).map (stt T) := by
        rw [List.map_append, List.map_map, p1]
        rfl
      cases deter with
      | false =>
        rw [if_neg (by simp), hqmap]
        refine ih _ (ds ++ [u]) _ ?_ hfuel2
        refine BFSInv_step hT hne inv p3 p4 p5
          (fun s hs => (p7 s hs).1) p8 (fun s hs => (p7 s hs).2) p9 ?_ ?_
        · intro v hv b
          rw [p2]
          rcases List.mem_append.mp hv with hv | hv
          · exact inv.G_done v hv b
          · rw [List.mem_singleton] at hv
            subst hv
            rw [if_neg (by simp)]
            exact hGu b
        · intro s hs b
          rw [p2]
          exact inv.G_rest s (fun v hv => hs v (List.mem_append_left _ hv)) b
      | true =>
        rw [if_pos rfl, hqmap]
        -- facts for the closure phase
        have hphiu_pc : InPC ps (phi ps u) := phi_InPC ps u
        have hphiu_len : (phi ps u).length < u.length := phi_length hune
        have hsttu0 : stt T u ≠ 0 := stt_ne_zero hT hu hune
        have hulen : u.length < T.cnt := len_lt_cnt hT hu
        obtain ⟨m, hm⟩ : ∃ m, T.cnt = m + 1 := ⟨T.cnt - 1, by omega⟩
        have hy_ne_ch : ∀ y : List α, InPC ps y → y.length < u.length →
            ∀ a ∈ T.W (stt T u), stt T (u ++ [a]) ≠ stt T y := by
          intro y hy hylen a ha h
          have heq := stt_inj hT (hch_pc a ha) hy h
          have hl := congrArg List.length heq
          rw [List.length_append, List.length_singleton] at hl
          omega
        have hy_ne_u : ∀ y : List α, InPC ps y → y.length < u.length →
            stt T y ≠ stt T u := by
          intro y hy hylen h
          have heq := stt_inj hT hy hu h
          subst heq
          exact absurd hylen (lt_irrefl _)
        have hGsrc_ac : ∀ y b, InPC ps y → y.length < u.length → b ∈ T.W (stt T y) →
            ac.G (stt T y, b) = some (stt T (y ++ [b])) := by
          intro y b hy hylen hb
          have hypcb : InPC ps (y ++ [b]) := (W_stt hT hy b).mp hb
          by_cases hyne : y = []
          · subst hyne
            rw [inv.G_rest (stt T [])
                (fun v hv => hzero_ne v (List.mem_append_left _ hv)) b,
              G_stt hT (InPC_nil ps) b, if_pos hypcb]
          · have hyds : y ∈ ds := hshallow y hy hyne hylen
            have hdone := inv.G_done y hyds b
            rw [if_pos rfl, maxSuf_eq_self hypcb, if_neg (by simp)] at hdone
            exact hdone
        -- unroll the first iteration of the closure loop
        have hcntP : (processChildren ac (stt T u) (T.W (stt T u))).1.cnt = m + 1 := by
          rw [p4, inv.cnt_eq, hm]
        have hPFu : (processChildren ac (stt T u) (T.W (stt T u))).1.F (stt T u) =
            some (stt T (phi ps u)) := by
          rw [(p7 (stt T u) (fun a ha => hch_ne_u a ha)).1]
          exact hFr
        rw [hcntP, closureLoop, if_pos hsttu0, hPFu, Option.getD_some, p3, inv.W_eq]
        obtain ⟨ci1, ci2, ci3, ci4, ci5, ci6, ci7, ci8, ci9⟩ :=
          @closureInner_spec α _ (stt T u) (stt T (phi ps u))
            (T.W (stt T (phi ps u)))
            (processChildren ac (stt T u) (T.W (stt T u))).1 (hT.W_nodup _)
        have hW1 : (closureInner (stt T u) (stt T (phi ps u))
            (processChildren ac (stt T u) (T.W (stt T u))).1
            (T.W (stt T (phi ps u)))).W = T.W := by
          rw [ci6, p3, inv.W_eq]
        have hFc1 : ∀ y, y <:+ phi ps u → y ≠ [] → InPC ps y →
            (closureInner (stt T u) (stt T (phi ps u))
              (processChildren ac (stt T u) (T.W (stt T u))).1
              (T.W (stt T (phi ps u)))).F (stt T y) =
              some (stt T (phi ps y)) := by
          intro y hysuf hyne hy
          have hylen : y.length < u.length :=
            Nat.lt_of_le_of_lt hysuf.length_le hphiu_len
          rw [ci5, (p7 (stt T y) (hy_ne_ch y hy hylen)).1]
          exact hFconn y hy hyne hylen
        have hGsrc1 : ∀ y b, y <:+ phi ps u → InPC ps y → b ∈ T.W (stt T y) →
            (closureInner (stt T u) (stt T (phi ps u))
              (processChildren ac (stt T u) (T.W (stt T u))).1
              (T.W (stt T (phi ps u)))).G (stt T y, b) =
              some (stt T (y ++ [b])) := by
          intro y b hysuf hy hb
          have hylen : y.length < u.length :=
            Nat.lt_of_le_of_lt hysuf.length_le hphiu_len
          rw [ci1 _ b (hy_ne_u y hy hylen), p2]
          exact hGsrc_ac y b hy hylen hb
        have hGcur1 : ∀ b,
            (closureInner (stt T u) (stt T (phi ps u))
              (processChildren ac (stt T u) (T.W (stt T u))).1
              (T.W (stt T (phi ps u)))).G (stt T u, b) =
            if T.G (stt T u, b) = none then
              (if (phi ps u).length < (maxSuf ps (phi ps u ++ [b])).length
               then some (stt T (maxSuf ps (phi ps u ++ [b]))) else none)
            else T.G (stt T u, b) := by
          intro b
          by_cases hmem : b ∈ T.W (stt T (phi ps u))
          · have hpcb : InPC ps (phi ps u ++ [b]) := (W_stt hT hphiu_pc b).mp hmem
            have hlt : (phi ps u).length < (phi ps u ++ [b]).length := by
              rw [List.length_append, List.length_singleton]
              omega
            rw [ci3 b hmem, p2, hGu b, hGsrc_ac (phi ps u) b hphiu_pc hphiu_len hmem,
              maxSuf_eq_self hpcb, if_pos hlt]
          · have hnpc : ¬ InPC ps (phi ps u ++ [b]) :=
              fun h => hmem ((W_stt hT hphiu_pc b).mpr h)
            rw [ci2 b hmem, p2, hGu b]
            by_cases hTG : T.G (stt T u, b) = none
            · have hMles : (maxSuf ps (phi ps u ++ [b])).length ≤ (phi ps u).length := by
                by_contra hcon
                push_neg at hcon
                have hsuf := maxSuf_suffix ps (phi ps u ++ [b])
                have hle := hsuf.length_le
                rw [List.length_append, List.length_singleton] at hle
                have heq : maxSuf ps (phi ps u ++ [b]) = phi ps u ++ [b] := by
                  refine List.IsSuffix.eq_of_length hsuf ?_
                  rw [List.length_append, List.length_singleton]
                  omega
                exact hnpc (heq ▸ maxSuf_InPC ps (phi ps u ++ [b]))
              rw [hTG, if_pos rfl, if_neg (by omega)]
            · rw [if_neg hTG]
        have hmfuel : (phi ps u).length + 1 ≤ m := by omega
        obtain ⟨g1, g2, g3, g4, g5, g6, g7, g8⟩ :=
          closureLoop_go hT hu hune m _ (phi ps u) List.suffix_rfl hphiu_pc
            hmfuel hW1 hFc1 hGsrc1 hGcur1
        refine ih _ (ds ++ [u]) _ ?_ hfuel2
        refine BFSInv_step hT hne inv (g5.trans (ci6.trans p3)) (g6.trans (ci7.trans p4))
          (g7.trans (ci8.trans p5))
          (fun s hs => by rw [g4, ci5]; exact (p7 s hs).1)
          (fun a ha => by rw [g4, ci5]; exact p8 a ha)
          (fun s hs => by rw [g3, ci4]; exact (p7 s hs).2)
          (fun a ha w => by rw [g3, ci4]; exact p9 a ha w)
          ?_ ?_
        · intro v hv b
          rcases List.mem_append.mp hv with hvds | hvu
          · rw [g2 _ b (hsttu_ne v hvds), ci1 _ b (hsttu_ne v hvds), p2]
            exact inv.G_done v hvds b
          · rw [List.mem_singleton] at hvu
            rw [hvu, if_pos rfl]
            by_cases hpc : InPC ps (u ++ [b])
            · have hTG : T.G (stt T u, b) = some (stt T (u ++ [b])) := by
                rw [G_stt hT hu b, if_pos hpc]
              rw [g1 b, if_neg (by rw [hTG]; simp), hTG,
                maxSuf_eq_self hpc, if_neg (by simp)]
            · have hTG : T.G (stt T u, b) = none := by
                rw [G_stt hT hu b, if_neg hpc]
              rw [g1 b, if_pos hTG, maxSuf_fall hpc]
        · intro s hs b
          have hsu : s ≠ stt T u := fun h => hs u (by simp) h.symm
          rw [g2 s b hsu, ci1 s b hsu, p2]
          exact inv.G_rest s (fun v hv => hs v (List.mem_append_left _ hv)) b

/-- When the queue is empty, every nonempty prefix-closure path has been
processed. -/
theorem BFSInv.all_done {ps : List (List α)} {T : AC α} {deter : Bool}
    {ac : AC α} {ds : List (List α)}
    (inv : BFSInv ps T deter ac ds ([] : List (List α))) :
    ∀ v : List α, InPC ps v → v ≠ [] → v ∈ ds := by
  intro v
  induction v using List.reverseRecOn with
  | nil => exact fun _ h => absurd rfl h
  | append_singleton w a ih =>
    intro hv _
    have hiff := inv.disc_iff (w ++ [a]) hv (by simp)
    rw [List.append_nil] at hiff
    rw [hiff]
    by_cases hw : w = []
    · subst hw
      left
      simp
    · right
      rw [List.dropLast_concat]
      exact ih (InPC_pref (List.prefix_append _ _) hv) hw

/-- Full correctness of `AC.build` on a freshly constructed trie, in both
modes.  The conclusion packages everything the two `search` branches need. -/
theorem build_spec {ps : List (List α)} {T : AC α} (hT : TrieStr T ps)
    (hO : OTrie T ps) (hne : ∀ w ∈ ps, w ≠ [])
    (hF0 : T.F = fun _ => none) (hb : T.built = false) (deter : Bool) :
    ∃ B : AC α, build T deter = Except.ok B ∧
      B.built = true ∧
      B.deter = deter ∧
      B.cnt = T.cnt ∧
      B.O 0 = [] ∧
      (∀ v, InPC ps v → v ≠ [] → ∀ w, w ∈ B.O (stt T v) ↔ w ∈ ps ∧ w <:+ v) ∧
      (deter = false → B.G = T.G) ∧
      (deter = false → ∀ v, InPC ps v → v ≠ [] →
        B.F (stt T v) = some (stt T (phi ps v))) ∧
      (deter = false → ∀ s, (∀ v, InPC ps v → v ≠ [] → stt T v ≠ s) →
        B.F s = none) ∧
      (deter = true → B.F = fun _ => none) ∧
      (deter = true → ∀ (v : List α) (b : α), InPC ps v →
        B.G (stt T v, b) = if maxSuf ps (v ++ [b]) = [] then none
          else some (stt T (maxSuf ps (v ++ [b])))) ∧
      (deter = true → ∀ (s : Nat) (b : α), (∀ v, InPC ps v → stt T v ≠ s) →
        B.G (s, b) = T.G (s, b)) := by
  have hch : ∀ a ∈ T.W 0, InPC ps [a] := by
    intro a ha
    exact (W_stt hT (InPC_nil ps) a).mp ha
  obtain ⟨s1, s2, s3, s4, s5, s6, s7, s8, s9⟩ :=
    seed_spec hT (T.W 0) T rfl hch (hT.W_nodup 0)
  have hmemq : ∀ v ∈ ([] : List (List α)) ++ (T.W 0).map (fun a => [a]),
      ∃ a, a ∈ T.W 0 ∧ v = [a] := by
    intro v hv
    rw [List.nil_append, List.mem_map] at hv
    obtain ⟨a, ha, rfl⟩ := hv
    exact ⟨a, ha, rfl⟩
  have inv0 : BFSInv ps T deter (seed T (T.W 0)).1 []
      ((T.W 0).map fun a => [a]) := by
    refine ⟨s3, s4, s5.trans hb, ?_, ?_, ?_, ?_, ?_, ?_, ?_, ?_, ?_, ?_⟩
    · intro v hv
      obtain ⟨a, ha, rfl⟩ := hmemq v hv
      exact ⟨hch a ha, by simp⟩
    · rw [List.nil_append]
      exact (hT.W_nodup 0).map List.singleton_injective
    · intro v hv hvne
      rw [List.nil_append, List.mem_map]
      constructor
      · rintro ⟨a, ha, rfl⟩
        left
        rfl
      · rintro (h1 | h2)
        · cases v with
          | nil => exact absurd rfl hvne
          | cons c cs =>
            rw [List.length_cons] at h1
            have hcs : cs = [] := List.eq_nil_of_length_eq_zero (by omega)
            subst hcs
            exact ⟨c, (W_stt hT (InPC_nil ps) c).mpr hv, rfl⟩
        · exact absurd h2 (List.not_mem_nil _)
    · rw [List.nil_append]
      refine List.pairwise_of_forall_mem_list ?_
      intro x hx y hy
      rw [List.mem_map] at hx hy
      obtain ⟨a, _, rfl⟩ := hx
      obtain ⟨b, _, rfl⟩ := hy
      simp
    · intro v hv
      obtain ⟨a, ha, rfl⟩ := hmemq v hv
      exact s9 a ha
    · intro s hs
      have hrw := s8 s (fun a ha =>
        hs [a] (by rw [List.nil_append]; exact List.mem_map.mpr ⟨a, ha, rfl⟩))
      rw [hrw, hF0]
    · intro v hv w
      obtain ⟨a, ha, rfl⟩ := hmemq v hv
      rw [s2, hO (stt T [a]) w]
      constructor
      · rintro ⟨hwps, hreach⟩
        have hwpc : InPC ps w := InPC_of_mem hwps
        have hw : w = [a] := by
          have h1 := stt_some hT hwpc
          rw [h1] at hreach
          injection hreach with h2
          exact stt_inj hT hwpc (hch a ha) h2
        subst hw
        exact ⟨hwps, List.suffix_rfl⟩
      · rintro ⟨hwps, hsuf⟩
        have hwne : w ≠ [] := hne w hwps
        obtain ⟨t, ht⟩ := hsuf
        have hlen := congrArg List.length ht
        rw [List.length_append, List.length_singleton] at hlen
        have htnil : t = [] := List.eq_nil_of_length_eq_zero (by
          have := List.length_pos.mpr hwne
          omega)
        subst htnil
        rw [List.nil_append] at ht
        subst ht
        exact ⟨hwps, stt_some hT (hch a ha)⟩
    · intro s _
      rw [s2]
    · intro v hv
      exact absurd hv (List.not_mem_nil v)
    · intro s _ b
      rw [s1]
  obtain ⟨ds', inv'⟩ := buildLoop_spec hT hO hne deter (seed T (T.W 0)).1.cnt
    (seed T (T.W 0)).1 [] ((T.W 0).map fun a => [a]) inv0
    (by rw [s4, List.length_nil]; omega)
  have hq : (((T.W 0).map fun a => [a]).map (stt T)) = (seed T (T.W 0)).2 := by
    rw [List.map_map, s7]
    rfl
  rw [hq] at inv'
  have hdone : ∀ v, InPC ps v → v ≠ [] → v ∈ ds' := inv'.all_done
  have hmem0 : ∀ v ∈ ds' ++ ([] : List (List α)), InPC ps v ∧ v ≠ [] :=
    inv'.disc_mem
  have hbuild : build T deter = Except.ok
      { (buildLoop deter (seed T (T.W 0)).1.cnt (seed T (T.W 0)).1
          (seed T (T.W 0)).2 : AC α) with
        W := fun _ => ([] : List α),
        F := if deter then (fun _ => none) else
          (buildLoop deter (seed T (T.W 0)).1.cnt (seed T (T.W 0)).1
            (seed T (T.W 0)).2).F,
        built := true,
        deter := deter } := by
    simp only [build]
    rw [hb]
    rfl
  refine ⟨_, hbuild, rfl, rfl, ?_, ?_, ?_, ?_, ?_, ?_, ?_, ?_, ?_⟩
  · exact inv'.cnt_eq
  · exact (inv'.O_undisc 0 (fun v hv h =>
      stt_ne_zero hT (hmem0 v hv).1 (hmem0 v hv).2 h)).trans (T_O0 hT hO hne)
  · intro v hv hvne w
    exact inv'.O_disc v (List.mem_append_left _ (hdone v hv hvne)) w
  · intro hd
    subst hd
    funext p
    obtain ⟨s, b⟩ := p
    show (buildLoop false (seed T (T.W 0)).1.cnt (seed T (T.W 0)).1
      (seed T (T.W 0)).2).G (s, b) = T.G (s, b)
    by_cases hex : ∃ v ∈ ds', stt T v = s
    · obtain ⟨v, hv, rfl⟩ := hex
      have hdn := inv'.G_done v hv b
      rw [if_neg (by simp)] at hdn
      exact hdn
    · exact inv'.G_rest s (fun v hv h => hex ⟨v, hv, h⟩) b
  · intro hd v hv hvne
    subst hd
    exact inv'.F_disc v (List.mem_append_left _ (hdone v hv hvne))
  · intro hd s hs
    subst hd
    exact inv'.F_undisc s
      (fun v hv => hs v (hmem0 v hv).1 (hmem0 v hv).2)
  · intro hd
    subst hd
    rfl
  · intro hd v b hv
    subst hd
    show (buildLoop true (seed T (T.W 0)).1.cnt (seed T (T.W 0)).1
      (seed T (T.W 0)).2).G (stt T v, b) =
      if maxSuf ps (v ++ [b]) = [] then none
      else some (stt T (maxSuf ps (v ++ [b])))
    by_cases hvne : v = []
    · subst hvne
      rw [inv'.G_rest (stt T []) (fun v' hv' h =>
        stt_ne_zero hT (hmem0 v' (List.mem_append_left _ hv')).1
          (hmem0 v' (List.mem_append_left _ hv')).2 h) b]
      rw [G_stt hT (InPC_nil ps) b]
      simp only [List.nil_append]
      by_cases hpc : InPC ps [b]
      · rw [if_pos hpc, maxSuf_eq_self hpc, if_neg (by simp)]
      · have hms : maxSuf ps [b] = [] := by rw [maxSuf, if_neg hpc, maxSuf]
        rw [if_neg hpc, hms, if_pos rfl]
    · have hdn := inv'.G_done v (hdone v hv hvne) b
      rw [if_pos rfl] at hdn
      exact hdn
  · intro hd s b hs
    subst hd
    show (buildLoop true (seed T (T.W 0)).1.cnt (seed T (T.W 0)).1
      (seed T (T.W 0)).2).G (s, b) = T.G (s, b)
    exact inv'.G_rest s
      (fun v hv => hs v (hmem0 v (List.mem_append_left _ hv)).1) b

/-! ### The compiled automaton and the scan loop -/

/-- The facts `build_spec` establishes about the compiled automaton,
bundled. -/
structure BuildFacts (ps : List (List α)) (T B : AC α) (deter : Bool) : Prop where
  is_built : B.built = true
  deterEq : B.deter = deter
  cntEq : B.cnt = T.cnt
  O0 : B.O 0 = []
  Och : ∀ v, InPC ps v → v ≠ [] → ∀ w, w ∈ B.O (stt T v) ↔ w ∈ ps ∧ w <:+ v
  Gnd : deter = false → B.G = T.G
  Fnd : deter = false → ∀ v, InPC ps v → v ≠ [] →
    B.F (stt T v) = some (stt T (phi ps v))
  Fnd0 : deter = false → ∀ s, (∀ v, InPC ps v → v ≠ [] → stt T v ≠ s) →
    B.F s = none
  Fdet : deter = true → B.F = fun _ => none
  Gdet : deter = true → ∀ (v : List α) (b : α), InPC ps v →
    B.G (stt T v, b) = if maxSuf ps (v ++ [b]) = [] then none
      else some (stt T (maxSuf ps (v ++ [b])))
  Gdet2 : deter = true → ∀ (s : Nat) (b : α), (∀ v, InPC ps v → stt T v ≠ s) →
    B.G (s, b) = T.G (s, b)

/-- `build_spec`, with its conclusion bundled as `BuildFacts`. -/
theorem build_facts {ps : List (List α)} {T : AC α} (hT : TrieStr T ps)
    (hO : OTrie T ps) (hne : ∀ w ∈ ps, w ≠ [])
    (hF0 : T.F = fun _ => none) (hb : T.built = false) (deter : Bool) :
    ∃ B : AC α, build T deter = Except.ok B ∧ BuildFacts ps T B deter := by
  obtain ⟨B, h1, h2, h3, h4, h5, h6, h7, h8, h9, h10, h11, h12⟩ :=
    build_spec hT hO hne hF0 hb deter
  exact ⟨B, h1, ⟨h2, h3, h4, h5, h6, h7, h8, h9, h10, h11, h12⟩⟩

/-- One deterministic scan step moves the state from the longest-suffix path
of the scanned prefix to that of the extended prefix. -/
theorem stepDet_maxSuf {ps : List (List α)} {T B : AC α} (hT : TrieStr T ps)
    (bf : BuildFacts ps T B true) (p : List α) (c : α) :
    stepDet B (stt T (maxSuf ps p)) c = stt T (maxSuf ps (p ++ [c])) := by
  unfold stepDet
  rw [bf.Gdet rfl (maxSuf ps p) c (maxSuf_InPC ps p), ← maxSuf_step ps p c]
  by_cases hM : maxSuf ps (p ++ [c]) = []
  · rw [if_pos hM, hM]
    rfl
  · rw [if_neg hM]
    rfl

/-- One non-deterministic scan step does the same, through the failure
fallback loop. -/
theorem stepND_maxSuf {ps : List (List α)} {T B : AC α} (hT : TrieStr T ps)
    (bf : BuildFacts ps T B false) (p : List α) (c : α) :
    stepND B (stt T (maxSuf ps p)) c = stt T (maxSuf ps (p ++ [c])) := by
  unfold stepND
  have hres := @fallback_correct α _ ps T hT B c B.cnt (maxSuf ps p)
    (maxSuf_InPC ps p)
    (fun y _ hyne hy => bf.Fnd rfl y hy hyne)
    (fun y _ hy => G_char_of_trie hT (by rw [bf.Gnd rfl]) hy)
    (by
      rw [bf.cntEq]
      have := len_lt_cnt hT (maxSuf_InPC ps p)
      omega)
  rw [hres, ← maxSuf_step ps p c]

/-- Output read at a scan state: exactly the patterns that are suffixes of
the scanned prefix. -/
theorem O_scan {ps : List (List α)} {T B : AC α} {deter : Bool}
    (hT : TrieStr T ps) (hne : ∀ w ∈ ps, w ≠ [])
    (bf : BuildFacts ps T B deter) (t : List α) :
    ∀ w, w ∈ B.O (stt T (maxSuf ps t)) ↔ w ∈ ps ∧ w <:+ t := by
  intro w
  by_cases hM : maxSuf ps t = []
  · rw [hM, show stt T ([] : List α) = 0 from rfl, bf.O0]
    constructor
    · intro h
      exact absurd h (List.not_mem_nil _)
    · rintro ⟨hwps, hsuf⟩
      exfalso
      have hws := (mem_suffix_iff_maxSuf hwps).mp hsuf
      rw [hM] at hws
      exact hne w hwps (List.suffix_nil.mp hws)
  · rw [bf.Och (maxSuf ps t) (maxSuf_InPC ps t) hM w]
    constructor
    · rintro ⟨hwps, hsuf⟩
      exact ⟨hwps, (mem_suffix_iff_maxSuf hwps).mpr hsuf⟩
    · rintro ⟨hwps, hsuf⟩
      exact ⟨hwps, (mem_suffix_iff_maxSuf hwps).mp hsuf⟩

/-- Membership in the non-deterministic scan loop's result, relative to an
already-scanned prefix `p`. -/
theorem searchND_mem {ps : List (List α)} {T B : AC α} (hT : TrieStr T ps)
    (hne : ∀ w ∈ ps, w ≠ []) (bf : BuildFacts ps T B false) :
    ∀ (cs p : List α) (w : List α) (j : Int),
      ((w, j) ∈ searchND B (stt T (maxSuf ps p)) (p.length + 1) cs ↔
        (w ∈ ps ∧ ∃ k, k < cs.length ∧ w <:+ p ++ cs.take (k + 1) ∧
          j = ((p.length + (k + 1) : Nat) : Int) - (w.length : Int))) := by
  intro cs
  induction cs with
  | nil =>
    intro p w j
    simp [searchND]
  | cons c cs' ih =>
    intro p w j
    have hstep := stepND_maxSuf hT bf p c
    have ih' := ih (p ++ [c]) w j
    rw [List.length_append, List.length_singleton] at ih'
    simp only [searchND]
    rw [hstep, List.mem_append, List.mem_map]
    constructor
    · rintro (⟨w', hw', hpair⟩ | hrec)
      · injection hpair with h1 h2
        subst h1
        obtain ⟨hwps, hwsuf⟩ := (O_scan hT hne bf (p ++ [c]) w').mp hw'
        refine ⟨hwps, 0, by simp, by simpa using hwsuf, ?_⟩
        omega
      · obtain ⟨hwps, k, hk, hsuf, hj⟩ := ih'.mp hrec
        refine ⟨hwps, k + 1, by simpa using Nat.succ_lt_succ hk, ?_, by omega⟩
        rw [List.append_assoc, List.cons_append, List.nil_append] at hsuf
        rw [List.take_succ_cons]
        exact hsuf
    · rintro ⟨hwps, k, hk, hsuf, hj⟩
      cases k with
      | zero =>
        left
        refine ⟨w, ?_, ?_⟩
        · refine (O_scan hT hne bf (p ++ [c]) w).mpr ⟨hwps, ?_⟩
          simpa using hsuf
        · have hje : j = ((p.length + 1 : Nat) : Int) - (w.length : Int) := by
            omega
          rw [hje]
      | succ k' =>
        right
        rw [List.length_cons] at hk
        refine ih'.mpr ⟨hwps, k', by omega, ?_, by omega⟩
        rw [List.take_succ_cons] at hsuf
        rw [List.append_assoc, List.cons_append, List.nil_append]
        exact hsuf

/-- Membership in the deterministic scan loop's result, relative to an
already-scanned prefix `p`. -/
theorem searchDet_mem {ps : List (List α)} {T B : AC α} (hT : TrieStr T ps)
    (hne : ∀ w ∈ ps, w ≠ []) (bf : BuildFacts ps T B true) :
    ∀ (cs p : List α) (w : List α) (j : Int),
      ((w, j) ∈ searchDet B (stt T (maxSuf ps p)) (p.length + 1) cs ↔
        (w ∈ ps ∧ ∃ k, k < cs.length ∧ w <:+ p ++ cs.take (k + 1) ∧
          j = ((p.length + (k + 1) : Nat) : Int) - (w.length : Int))) := by
  intro cs
  induction cs with
  | nil =>
    intro p w j
    simp [searchDet]
  | cons c cs' ih =>
    intro p w j
    have hstep := stepDet_maxSuf hT bf p c
    have ih' := ih (p ++ [c]) w j
    rw [List.length_append, List.length_singleton] at ih'
    simp only [searchDet]
    rw [hstep, List.mem_append, List.mem_map]
    constructor
    · rintro (⟨w', hw', hpair⟩ | hrec)
      · injection hpair with h1 h2
        subst h1
        obtain ⟨hwps, hwsuf⟩ := (O_scan hT hne bf (p ++ [c]) w').mp hw'
        refine ⟨hwps, 0, by simp, by simpa using hwsuf, ?_⟩
        omega
      · obtain ⟨hwps, k, hk, hsuf, hj⟩ := ih'.mp hrec
        refine ⟨hwps, k + 1, by simpa using Nat.succ_lt_succ hk, ?_, by omega⟩
        rw [List.append_assoc, List.cons_append, List.nil_append] at hsuf
        rw [List.take_succ_cons]
        exact hsuf
    · rintro ⟨hwps, k, hk, hsuf, hj⟩
      cases k with
      | zero =>
        left
        refine ⟨w, ?_, ?_⟩
        · refine (O_scan hT hne bf (p ++ [c]) w).mpr ⟨hwps, ?_⟩
          simpa using hsuf
        · have hje : j = ((p.length + 1 : Nat) : Int) - (w.length : Int) := by
            omega
          rw [hje]
      | succ k' =>
        right
        rw [List.length_cons] at hk
        refine ih'.mpr ⟨hwps, k', by omega, ?_, by omega⟩
        rw [List.take_succ_cons] at hsuf
        rw [List.append_assoc, List.cons_append, List.nil_append]
        exact hsuf

/-- `search` on a compiled automaton succeeds, and its result holds exactly
the pattern suffixes of the text prefixes, with the yielded index
`i - len(word)`. -/
theorem search_results {ps : List (List α)} {T B : AC α} {deter : Bool}
    (hT : TrieStr T ps) (hne : ∀ w ∈ ps, w ≠ [])
    (bf : BuildFacts ps T B deter) (t : List α) :
    ∃ res, search B t = Except.ok res ∧
      ∀ (w : List α) (j : Int), ((w, j) ∈ res ↔
        (w ∈ ps ∧ ∃ k, k < t.length ∧ w <:+ t.take (k + 1) ∧
          j = ((k + 1 : Nat) : Int) - (w.length : Int))) := by
  refine ⟨if B.deter then searchDet B 0 1 t else searchND B 0 1 t, ?_, ?_⟩
  · rw [search, if_pos bf.is_built]
  · intro w j
    rw [bf.deterEq]
    cases deter with
    | false =>
      rw [if_neg (by simp)]
      have h := searchND_mem hT hne bf t [] w j
      rw [show stt T (maxSuf ps ([] : List α)) = 0 from rfl] at h
      simp only [List.length_nil, List.nil_append, Nat.zero_add] at h
      exact h
    | true =>
      rw [if_pos rfl]
      have h := searchDet_mem hT hne bf t [] w j
      rw [show stt T (maxSuf ps ([] : List α)) = 0 from rfl] at h
      simp only [List.length_nil, List.nil_append, Nat.zero_add] at h
      exact h

/-- Bridge between the scan characterisation (a pattern is a suffix of a text
prefix) and the spec's occurrence notion `T[i:i+len(w)] == w`. -/
theorem occurrence_iff {w t : List α} {j : Int} (hwne : w ≠ []) :
    (∃ k, k < t.length ∧ w <:+ t.take (k + 1) ∧
      j = ((k + 1 : Nat) : Int) - (w.length : Int)) ↔
    (∃ n : Nat, j = (n : Int) ∧ n + w.length ≤ t.length ∧
      (t.drop n).take w.length = w) := by
  have hwpos : 0 < w.length := List.length_pos.mpr hwne
  constructor
  · rintro ⟨k, hk, hsuf, hj⟩
    obtain ⟨pre, hpre⟩ := hsuf
    have hlen := congrArg List.length hpre
    rw [List.length_append, List.length_take] at hlen
    have hmin : min (k + 1) t.length = k + 1 := by omega
    rw [hmin] at hlen
    refine ⟨pre.length, by omega, by omega, ?_⟩
    have hklen : k + 1 = pre.length + w.length := by omega
    rw [hklen, List.take_add] at hpre
    have hpl : pre.length = (t.take pre.length).length := by
      rw [List.length_take]
      omega
    exact (List.append_inj hpre hpl).2.symm
  · rintro ⟨n, hj, hle, hocc⟩
    refine ⟨n + w.length - 1, by omega, ?_, by omega⟩
    have hn1 : n + w.length - 1 + 1 = n + w.length := by omega
    rw [hn1, List.take_add]
    exact ⟨t.take n, by rw [hocc]⟩

/-- With failure links kept, the failure chain of a non-root state starts at
the state of its failure word. -/
theorem failChain_head {ps : List (List α)} {T B : AC α} (hT : TrieStr T ps)
    (bf : BuildFacts ps T B false) {v : List α} (hv : InPC ps v)
    (hvne : v ≠ []) :
    stt T (phi ps v) ∈ failChain B.F B.cnt (stt T v) := by
  obtain ⟨m, hm⟩ : ∃ m, B.cnt = m + 1 := by
    refine ⟨B.cnt - 1, ?_⟩
    have h1 := bf.cntEq
    have h2 := hT.cnt_pos
    omega
  rw [hm, failChain, bf.Fnd rfl v hv hvne]
  exact List.mem_cons_self _ _

/-- Every state on a failure chain is the state of a shorter trie-path
suffix. -/
theorem failChain_elem {ps : List (List α)} {T B : AC α} (hT : TrieStr T ps)
    (bf : BuildFacts ps T B false) :
    ∀ (fuel : Nat) (y : List α), InPC ps y →
      ∀ s', s' ∈ failChain B.F fuel (stt T y) →
        ∃ z, InPC ps z ∧ z <:+ y ∧ z.length < y.length ∧ s' = stt T z := by
  intro fuel
  induction fuel with
  | zero =>
    intro y _ s' h
    rw [failChain] at h
    exact absurd h (List.not_mem_nil _)
  | succ f ihf =>
    intro y hy s' h
    by_cases hyne : y = []
    · subst hyne
      rw [failChain] at h
      have hF0 : B.F (stt T ([] : List α)) = none :=
        bf.Fnd0 rfl _ (fun v hv hvne heq => stt_ne_zero hT hv hvne heq)
      rw [hF0] at h
      exact absurd h (List.not_mem_nil _)
    · rw [failChain, bf.Fnd rfl y hy hyne] at h
      have h' : s' = stt T (phi ps y) ∨
          s' ∈ failChain B.F f (stt T (phi ps y)) := List.mem_cons.mp h
      obtain ⟨hps1, hps2⟩ := @phi_suffix α _ ps y hyne
      have hplen : (phi ps y).length < y.length := phi_length hyne
      rcases h' with rfl | htail
      · exact ⟨phi ps y, phi_InPC ps y, hps1, hplen, rfl⟩
      · obtain ⟨z, hz1, hz2, hz3, hz4⟩ := ihf (phi ps y) (phi_InPC ps y) s' htail
        exact ⟨z, hz1, hz2.trans hps1, by omega, hz4⟩

/-- A symbol occurring in no pattern kills the longest trie-path suffix. -/
theorem maxSuf_unseen {ps : List (List α)} {c : α} (hc : ∀ w ∈ ps, c ∉ w)
    (p : List α) : maxSuf ps (p ++ [c]) = [] := by
  by_contra hM
  have hx := maxSuf_suffix ps (p ++ [c])
  have hpc := maxSuf_InPC ps (p ++ [c])
  rcases suffix_snoc_iff.mp hx with h | ⟨x', hx', hxe⟩
  · exact hM h
  · have hcmem : c ∈ maxSuf ps (p ++ [c]) := by
      rw [hxe]
      simp
    rcases hpc with h | ⟨w, hw, hpref⟩
    · exact hM h
    · exact hc w hw (hpref.subset hcmem)

/-! ### Concrete example automata used by the witnesses -/

def exPats : List (List Nat) := [[1, 0], [0]]

def exT : AC Nat := (addAll init exPats).toOption.getD init

def exB : AC Nat := (build exT false).toOption.getD init

def exBD : AC Nat := (build exT true).toOption.getD init

/-! ### Easy lifecycle claims -/

theorem build_built {ac ac2 : AC α} {flag : Bool}
    (h : build ac flag = .ok ac2) : ac2.built = true := by
  unfold build at h
  by_cases hb : ac.built
  · simp [hb] at h
  · simp [hb] at h
    subst h
    rfl

/-- Claim C5: for every text, calling `search` on an automaton whose `build`
has not been called fails with the "not built" error (so no match is
yielded). -/
theorem C5_search_before_build (ac : AC α) (text : List α)
    (h : ac.built = false) :
    search ac text = .error "you need to build the automata before searching" := by
  simp [search, h]

theorem C5_witness :
    search (init : AC Nat) [0, 1] =
      .error "you need to build the automata before searching" :=
  C5_search_before_build init [0, 1] rfl

/-- Claim C6: after `build` has completed, every call to `add` fails with the
"adding new words after building is not allowed" error, and every further call
to `build` fails with the "already built" error. -/
theorem C6_after_build (ac ac2 : AC α) (flag : Bool)
    (h : build ac flag = .ok ac2) (w : List α) (flag2 : Bool) :
    add ac2 w = .error ("adding new words after building is not allowed", ac2) ∧
      build ac2 flag2 = .error "already built" := by
  have hb : ac2.built = true := build_built h
  constructor
  · simp [add, hb]
  · simp [build, hb]

theorem C6_witness :
    add exB [5] = .error ("adding new words after building is not allowed", exB) ∧
      build exB true = .error "already built" :=
  C6_after_build exT exB false (by rfl) [5] true

/-- Claim C7: calling `add` with a zero-length pattern, before build, fails
with the "unable to add empty words" error (the state after the empty loop is
the root `0`), and the automaton carried by the error is unchanged. -/
theorem C7_empty_word (ac : AC α) (h : ac.built = false) :
    add ac [] = .error ("unable to add empty words", ac) := by
  simp [add, h, addLoop]

theorem C7_witness :
    add (init : AC Nat) [] = .error ("unable to add empty words", init) :=
  C7_empty_word init rfl

/-- In an automaton all of whose transition values are nonzero (with a
counter at least `1`), the add loop on a nonempty word never ends at the
root. -/
theorem addLoop_ne_zero (w : List α) :
    ∀ (ac : AC α) (s : Nat),
      (∀ p t, ac.G p = some t → t ≠ 0) → 1 ≤ ac.cnt →
      (s ≠ 0 ∨ w ≠ []) → (addLoop ac s w).2 ≠ 0 := by
  induction w with
  | nil =>
    intro ac s _ _ hd
    simp only [addLoop]
    rcases hd with h | h
    · exact h
    · exact absurd rfl h
  | cons c cs ih =>
    intro ac s hG hc _
    simp only [addLoop]
    split
    · next t hmatch =>
      exact ih _ _ hG hc (Or.inl (hG _ _ hmatch))
    · next hmatch =>
      refine ih _ _ ?_ ?_ (Or.inl ?_)
      · intro p t hpt
        simp only at hpt
        by_cases hp : p = (s, c)
        · rw [if_pos hp] at hpt
          have : ac.cnt = t := by
            simpa using hpt
          omega
        · rw [if_neg hp] at hpt
          exact hG _ _ hpt
      · show 1 ≤ ac.cnt + 1
        omega
      · show ac.cnt ≠ 0
        omega

/-- Claim C10: when a call to `add` fails — because the automaton is already
built or because the pattern is empty — the automaton carried by the error is
exactly the automaton passed in: nothing was mutated.  The hypotheses say the
automaton is a well-formed one (its transition values avoid the root and its
counter has been initialised), which holds for everything the code builds. -/
theorem C10_failed_add_unchanged (ac : AC α)
    (hG : ∀ p t, ac.G p = some t → t ≠ 0) (hc : 1 ≤ ac.cnt)
    (w : List α) (e : String × AC α) (h : add ac w = .error e) :
    e.2 = ac := by
  unfold add at h
  by_cases hb : ac.built
  · rw [if_pos hb] at h
    injection h with h
    rw [← h]
  · rw [if_neg hb] at h
    simp only [] at h
    by_cases hz : (addLoop ac 0 w).2 = 0
    · rw [if_pos hz] at h
      have hw : w = [] := by
        by_contra hw
        exact addLoop_ne_zero w ac 0 hG hc (Or.inr hw) hz
      subst hw
      injection h with h
      rw [← h]
      rfl
    · rw [if_neg hz] at h
      exact absurd h (by simp)

theorem C10_witness :
    ("unable to add empty words", (init : AC Nat)).2 = (init : AC Nat) :=
  C10_failed_add_unchanged init (fun p t h => by simp [init] at h) (by simp [init])
    [] ("unable to add empty words", init) (by rfl)

/-- Unpacks the whole pipeline: a trie built by `addAll` from `init` and then
compiled by `build` satisfies the trie and build invariants. -/
theorem pipeline_facts {ps : List (List α)} (hne : ∀ w ∈ ps, w ≠ [])
    {T B : AC α} {deter : Bool}
    (hadd : addAll init ps = Except.ok T)
    (hbuild : build T deter = Except.ok B) :
    TrieStr T ps ∧ OTrie T ps ∧ BuildFacts ps T B deter := by
  obtain ⟨T', haddT, hT', hO', hF', hb', _⟩ := addAll_init hne
  rw [hadd] at haddT
  injection haddT with hTT
  subst hTT
  obtain ⟨B', hbuildB, bf⟩ := build_facts hT' hO' hne hF' hb' deter
  rw [hbuild] at hbuildB
  injection hbuildB with hBB
  subst hBB
  exact ⟨hT', hO', bf⟩

/-- Claim C1: for non-empty patterns `ps` inserted into a fresh automaton and
any text `t`, after `build` the search succeeds and yields `(w, i)` exactly
for the patterns `w` and positions `i` with `t[i : i + |w|] = w` — every
occurrence (overlaps included) is reported and nothing else. -/
theorem C1_search_sound_complete (ps : List (List α)) (t : List α)
    (flag : Bool) (hne : ∀ w ∈ ps, w ≠ []) {T B : AC α}
    (hadd : addAll init ps = Except.ok T)
    (hbuild : build T flag = Except.ok B) :
    ∃ res, search B t = Except.ok res ∧
      ∀ (w : List α) (j : Int), ((w, j) ∈ res ↔
        (w ∈ ps ∧ ∃ n : Nat, j = (n : Int) ∧ n + w.length ≤ t.length ∧
          (t.drop n).take w.length = w)) := by
  obtain ⟨hT, hO, bf⟩ := pipeline_facts hne hadd hbuild
  obtain ⟨res, hres, hmem⟩ := search_results hT hne bf t
  refine ⟨res, hres, ?_⟩
  intro w j
  rw [hmem w j]
  constructor
  · rintro ⟨hwps, hocc⟩
    exact ⟨hwps, (occurrence_iff (hne w hwps)).mp hocc⟩
  · rintro ⟨hwps, hocc⟩
    exact ⟨hwps, (occurrence_iff (hne w hwps)).mpr hocc⟩

theorem C1_witness :
    (∀ w ∈ exPats, w ≠ []) ∧
    addAll init exPats = Except.ok exT ∧
    build exT false = Except.ok exB ∧
    (∃ res, search exB [0, 1, 0] = Except.ok res ∧
      ∀ (w : List Nat) (j : Int), ((w, j) ∈ res ↔
        (w ∈ exPats ∧ ∃ n : Nat, j = (n : Int) ∧
          n + w.length ≤ ([0, 1, 0] : List Nat).length ∧
          (([0, 1, 0] : List Nat).drop n).take w.length = w))) :=
  ⟨by decide, rfl, rfl,
    C1_search_sound_complete exPats [0, 1, 0] false (by decide) rfl rfl⟩

/-- Claim C2: building with `deterministic=True` and with
`deterministic=False` from the same insertions yields searches with the same
set of `(word, index)` pairs on every text. -/
theorem C2_deterministic_equiv (ps : List (List α)) (t : List α)
    (hne : ∀ w ∈ ps, w ≠ []) {T B1 B2 : AC α}
    (hadd : addAll init ps = Except.ok T)
    (h1 : build T true = Except.ok B1)
    (h2 : build T false = Except.ok B2) :
    ∃ r1 r2, search B1 t = Except.ok r1 ∧ search B2 t = Except.ok r2 ∧
      ∀ pr : List α × Int, (pr ∈ r1 ↔ pr ∈ r2) := by
  obtain ⟨hT, hO, bf1⟩ := pipeline_facts hne hadd h1
  obtain ⟨_, _, bf2⟩ := pipeline_facts hne hadd h2
  obtain ⟨r1, hr1, hm1⟩ := search_results hT hne bf1 t
  obtain ⟨r2, hr2, hm2⟩ := search_results hT hne bf2 t
  refine ⟨r1, r2, hr1, hr2, ?_⟩
  rintro ⟨w, j⟩
  rw [hm1 w j, hm2 w j]

theorem C2_witness :
    (∀ w ∈ exPats, w ≠ []) ∧
    addAll init exPats = Except.ok exT ∧
    build exT true = Except.ok exBD ∧
    build exT false = Except.ok exB ∧
    (∃ r1 r2, search exBD [1, 0] = Except.ok r1 ∧
      search exB [1, 0] = Except.ok r2 ∧
      ∀ pr : List Nat × Int, (pr ∈ r1 ↔ pr ∈ r2)) :=
  ⟨by decide, rfl, rfl, rfl,
    C2_deterministic_equiv exPats [1, 0] (by decide) rfl rfl rfl⟩

/-- Claim C3: with failure links kept, the output set of the state reached by
trie path `v` consists of `v` itself when it is a pattern, together with
every output of the states on `v`'s failure chain (so the state of "she"
also carries "he" when both are inserted). -/
theorem C3_outputs_failure_chain (ps : List (List α))
    (hne : ∀ w ∈ ps, w ≠ []) {T B : AC α}
    (hadd : addAll init ps = Except.ok T)
    (hbuild : build T false = Except.ok B) :
    ∀ v, InPC ps v → ∀ w : List α,
      (w ∈ B.O (stt T v) ↔
        ((w ∈ ps ∧ w = v) ∨
         ∃ s' ∈ failChain B.F B.cnt (stt T v), w ∈ B.O s')) := by
  obtain ⟨hT, hO, bf⟩ := pipeline_facts hne hadd hbuild
  intro v hv w
  by_cases hvne : v = []
  · subst hvne
    rw [show stt T ([] : List α) = 0 from rfl, bf.O0]
    constructor
    · intro h
      exact absurd h (List.not_mem_nil _)
    · rintro (⟨hwps, rfl⟩ | ⟨s', hs', hw⟩)
      · exact absurd rfl (hne _ hwps)
      · exfalso
        obtain ⟨z, _, _, hz3, _⟩ :=
          failChain_elem hT bf B.cnt [] (InPC_nil ps) s' hs'
        exact absurd hz3 (by simp)
  · constructor
    · intro h
      obtain ⟨hwps, hwsuf⟩ := (bf.Och v hv hvne w).mp h
      by_cases hwv : w = v
      · exact Or.inl ⟨hwps, hwv⟩
      · refine Or.inr ⟨stt T (phi ps v), failChain_head hT bf hv hvne, ?_⟩
        have hwphi : w <:+ phi ps v := suffix_phi hwsuf hwv (InPC_of_mem hwps)
        have hphine : phi ps v ≠ [] := by
          intro h0
          rw [h0] at hwphi
          exact hne w hwps (List.suffix_nil.mp hwphi)
        exact (bf.Och (phi ps v) (phi_InPC ps v) hphine w).mpr ⟨hwps, hwphi⟩
    · rintro (⟨hwps, rfl⟩ | ⟨s', hs', hw⟩)
      · exact (bf.Och _ hv hvne _).mpr ⟨hwps, List.suffix_rfl⟩
      · obtain ⟨z, hz1, hz2, hz3, rfl⟩ :=
          failChain_elem hT bf B.cnt v hv s' hs'
        have hzne : z ≠ [] := by
          intro h0
          subst h0
          rw [show stt T ([] : List α) = 0 from rfl, bf.O0] at hw
          exact absurd hw (List.not_mem_nil _)
        obtain ⟨hwps, hwz⟩ := (bf.Och z hz1 hzne w).mp hw
        exact (bf.Och v hv hvne w).mpr ⟨hwps, hwz.trans hz2⟩

theorem C3_witness :
    (∀ w ∈ exPats, w ≠ []) ∧
    addAll init exPats = Except.ok exT ∧
    build exT false = Except.ok exB ∧
    (∀ v, InPC exPats v → ∀ w : List Nat,
      (w ∈ exB.O (stt exT v) ↔
        ((w ∈ exPats ∧ w = v) ∨
         ∃ s' ∈ failChain exB.F exB.cnt (stt exT v), w ∈ exB.O s'))) :=
  ⟨by decide, rfl, rfl,
    C3_outputs_failure_chain exPats (by decide) rfl rfl⟩

/-- Claim C4: after `build(deterministic=False)`, the failure table maps each
non-root trie state to the state of the longest proper suffix of its path
that is itself a path from the root, the root has no entry, and states
outside the trie have no entry. -/
theorem C4_failure_table (ps : List (List α))
    (hne : ∀ w ∈ ps, w ≠ []) {T B : AC α}
    (hadd : addAll init ps = Except.ok T)
    (hbuild : build T false = Except.ok B) :
    B.F 0 = none ∧
    (∀ v, InPC ps v → v ≠ [] →
      B.F (stt T v) = some (stt T (phi ps v)) ∧
      phi ps v <:+ v ∧ phi ps v ≠ v ∧ InPC ps (phi ps v) ∧
      (∀ y, y <:+ v → y ≠ v → InPC ps y → y.length ≤ (phi ps v).length)) ∧
    (∀ s : Nat, (∀ v, InPC ps v → v ≠ [] → stt T v ≠ s) → B.F s = none) := by
  obtain ⟨hT, hO, bf⟩ := pipeline_facts hne hadd hbuild
  refine ⟨?_, ?_, fun s hs => bf.Fnd0 rfl s hs⟩
  · exact bf.Fnd0 rfl 0 (fun v hv hvne => stt_ne_zero hT hv hvne)
  · intro v hv hvne
    obtain ⟨h1, h2⟩ := @phi_suffix α _ ps v hvne
    refine ⟨bf.Fnd rfl v hv hvne, h1, h2, phi_InPC ps v, ?_⟩
    intro y hy hyne hypc
    exact (suffix_phi hy hyne hypc).length_le

theorem C4_witness :
    (∀ w ∈ exPats, w ≠ []) ∧
    addAll init exPats = Except.ok exT ∧
    build exT false = Except.ok exB ∧
    (exB.F 0 = none ∧
     (∀ v, InPC exPats v → v ≠ [] →
       exB.F (stt exT v) = some (stt exT (phi exPats v)) ∧
       phi exPats v <:+ v ∧ phi exPats v ≠ v ∧ InPC exPats (phi exPats v) ∧
       (∀ y, y <:+ v → y ≠ v → InPC exPats y →
         y.length ≤ (phi exPats v).length)) ∧
     (∀ s : Nat, (∀ v, InPC exPats v → v ≠ [] → stt exT v ≠ s) →
       exB.F s = none)) :=
  ⟨by decide, rfl, rfl, C4_failure_table exPats (by decide) rfl rfl⟩

/-- Claim C8: inserting a permutation of the same non-empty patterns and
building with the same flag yields a search with the same set of
`(word, index)` pairs on every text. -/
theorem C8_insertion_order (ps ps' : List (List α)) (hperm : ps.Perm ps')
    (t : List α) (flag : Bool)
    (hne : ∀ w ∈ ps, w ≠ []) {T B T' B' : AC α}
    (hadd : addAll init ps = Except.ok T)
    (hbuild : build T flag = Except.ok B)
    (hadd2 : addAll init ps' = Except.ok T')
    (hbuild2 : build T' flag = Except.ok B') :
    ∃ r r', search B t = Except.ok r ∧ search B' t = Except.ok r' ∧
      ∀ pr : List α × Int, (pr ∈ r ↔ pr ∈ r') := by
  have hne2 : ∀ w ∈ ps', w ≠ [] := fun w hw => hne w (hperm.mem_iff.mpr hw)
  obtain ⟨hT, hO, bf⟩ := pipeline_facts hne hadd hbuild
  obtain ⟨hT2, hO2, bf2⟩ := pipeline_facts hne2 hadd2 hbuild2
  obtain ⟨r, hr, hm⟩ := search_results hT hne bf t
  obtain ⟨r', hr2, hm2⟩ := search_results hT2 hne2 bf2 t
  refine ⟨r, r', hr, hr2, ?_⟩
  rintro ⟨w, j⟩
  rw [hm w j, hm2 w j]
  constructor
  · rintro ⟨hwps, rest⟩
    exact ⟨hperm.mem_iff.mp hwps, rest⟩
  · rintro ⟨hwps, rest⟩
    exact ⟨hperm.mem_iff.mpr hwps, rest⟩

def exPats2 : List (List Nat) := [[0], [1, 0]]

def exT2 : AC Nat := (addAll init exPats2).toOption.getD init

def exB2 : AC Nat := (build exT2 false).toOption.getD init

theorem C8_witness :
    exPats.Perm exPats2 ∧
    (∀ w ∈ exPats, w ≠ []) ∧
    addAll init exPats = Except.ok exT ∧
    build exT false = Except.ok exB ∧
    addAll init exPats2 = Except.ok exT2 ∧
    build exT2 false = Except.ok exB2 ∧
    (∃ r r', search exB [1, 0] = Except.ok r ∧
      search exB2 [1, 0] = Except.ok r' ∧
      ∀ pr : List Nat × Int, (pr ∈ r ↔ pr ∈ r')) :=
  ⟨by decide, by decide, rfl, rfl, rfl, rfl,
    C8_insertion_order exPats exPats2 (by decide) [1, 0] false (by decide)
      rfl rfl rfl rfl⟩

/-- Claim C9: a symbol occurring in no inserted pattern causes no error —
`search` still succeeds — and reading it sends the matcher to the root state
`0` in both modes, whose output set is empty, so no match is yielded at that
position. -/
theorem C9_unseen_symbol (ps : List (List α)) (t : List α) (flag : Bool)
    (hne : ∀ w ∈ ps, w ≠ []) {T B : AC α}
    (hadd : addAll init ps = Except.ok T)
    (hbuild : build T flag = Except.ok B)
    (c : α) (hc : ∀ w ∈ ps, c ∉ w) :
    (∃ res, search B t = Except.ok res) ∧
    B.O 0 = [] ∧
    (∀ p : List α,
      (if flag then stepDet B (stt T (maxSuf ps p)) c
       else stepND B (stt T (maxSuf ps p)) c) = 0) := by
  obtain ⟨hT, hO, bf⟩ := pipeline_facts hne hadd hbuild
  obtain ⟨res, hres, _⟩ := search_results hT hne bf t
  refine ⟨⟨res, hres⟩, bf.O0, ?_⟩
  intro p
  cases flag with
  | true =>
    rw [if_pos rfl, stepDet_maxSuf hT bf p c, maxSuf_unseen hc p]
    rfl
  | false =>
    rw [if_neg (by simp), stepND_maxSuf hT bf p c, maxSuf_unseen hc p]
    rfl

theorem C9_witness :
    (∀ w ∈ exPats, w ≠ []) ∧
    addAll init exPats = Except.ok exT ∧
    build exT false = Except.ok exB ∧
    (∀ w ∈ exPats, 7 ∉ w) ∧
    ((∃ res, search exB [0, 7, 0] = Except.ok res) ∧
     exB.O 0 = [] ∧
     (∀ p : List Nat,
       (if false then stepDet exB (stt exT (maxSuf exPats p)) 7
        else stepND exB (stt exT (maxSuf exPats p)) 7) = 0)) :=
  ⟨by decide, rfl, rfl, by decide,
    C9_unseen_symbol exPats [0, 7, 0] false (by decide)
      (rfl : addAll init exPats = Except.ok exT)
      (rfl : build exT false = Except.ok exB) 7 (by decide)⟩

end Ahocora
